import Mathlib

/-!
Verification of the rust-eth proof-of-stake blockchain core.

This file gives a shallow embedding of the blockchain engine
(src/lib/src/types/blockchain.rs and src/lib/src/types/block.rs) and proves
properties of it.  Machine integers (u64) are modelled as Nat; the two places
where a u64 operation can leave the mathematical interpretation (the shift in
calculate_block_reward and the subtractions computing miner fees) are modelled
explicitly: an operation that would overflow or underflow a u64 (a panic under
Rust's checked arithmetic, a wrap/mask in release builds) is represented by a
distinguished outcome rather than by a wrong number.

Rust HashMap / HashSet values are modelled as association lists whose access
functions (lookupA, insertA, removeA, modifyA) mirror the map interface; map
equality is stated extensionally (per-key lookup), matching HashMap semantics.
-/

/-- Modelled from the spec: a Hash is a 256-bit digest of the canonically
serialized form of a value, equality by bytes, with a zero sentinel meaning
"no predecessor" (the source file sha256.rs is not under src/).  It is
represented by the big-endian integer value of its 32 bytes. -/
abbrev Hash := Nat

def Hash.zero : Hash := 0

/-- Modelled from the spec: interpreting the first 8 bytes of a 256-bit digest
as a big-endian unsigned 64-bit integer extracts the top 64 of its 256 bits. -/
def Hash.firstEightBE (h : Hash) : Nat := (h / 2 ^ 192) % 2 ^ 64

/-- Modelled from the spec: PublicKey is opaque with a total deterministic
order, usable as a map key (crypto.rs is not under src/). -/
abbrev PublicKey := Nat

/-- Modelled from the spec: a detached signature over a hash, opaque
(crypto.rs is not under src/). -/
abbrev Signature := Nat

/-- Modelled from the spec: a transaction output with a unique 128-bit
identifier, a value in the smallest unit, the owning pubkey, an is_stake flag
and a locked_until height (transaction.rs is not under src/). -/
structure TransactionOutput where
  unique_id : Nat
  value : Nat
  pubkey : PublicKey
  is_stake : Bool
  locked_until : Nat
deriving DecidableEq

/-- Modelled from the spec: a transaction input referencing a consumed output
by that output's hash, plus a signature over that hash (transaction.rs is not
under src/). -/
structure TransactionInput where
  prev_transaction_output_hash : Hash
  signature : Signature
deriving DecidableEq

/-- Modelled from the spec: an ordered list of inputs and of outputs
(transaction.rs is not under src/). -/
structure Transaction where
  inputs : List TransactionInput
  outputs : List TransactionOutput
deriving DecidableEq

/-- Block header, from src/lib/src/types/block.rs (timestamps are modelled as
Nat instants). -/
structure BlockHeader where
  timestamp : Nat
  prev_block_hash : Hash
  merkle_root : Nat
  validator : PublicKey
deriving DecidableEq

/-- Block, from src/lib/src/types/block.rs. -/
structure Block where
  header : BlockHeader
  transactions : List Transaction
  signature : Signature
deriving DecidableEq

/-- Modelled from the spec: the closed set of engine error kinds (error.rs is
not under src/; the kinds are the ones named in the spec and used by
blockchain.rs and block.rs). -/
inductive EthError where
  | invalidBlock
  | invalidTransaction
  | invalidSignature
  | invalidMerkleRoot
  | invalidValidator
  | stakeLocked
deriving DecidableEq

/-- Outcome of a fallible engine operation: a value, a returned error, or a
Rust panic (reached by checked-arithmetic overflow or a failed expect). -/
inductive Outcome (α : Type) where
  | ok (a : α)
  | err (e : EthError)
  | panicked
deriving DecidableEq

def Outcome.isOk {α : Type} : Outcome α → Bool
  | .ok _ => true
  | _ => false

/-- Modelled from the spec: the hash and signature primitives are opaque
collaborators (sha256.rs, crypto.rs and util.rs are not under src/), so the
whole development is parametrised by them. -/
structure CryptoModel where
  outputHash : TransactionOutput → Hash
  txHash : Transaction → Hash
  headerHash : BlockHeader → Hash
  blockHash : Block → Hash
  merkleCalc : List Transaction → Nat
  sigVerify : Signature → Hash → PublicKey → Bool

section AssocList

variable {κ α : Type} [DecidableEq κ]

/-- Lookup of the first entry with the given key (HashMap.get). -/
def lookupA : List (κ × α) → κ → Option α
  | [], _ => none
  | (k, v) :: l, k2 => if k = k2 then some v else lookupA l k2

/-- HashMap.contains_key. -/
def containsA (l : List (κ × α)) (k : κ) : Bool := (lookupA l k).isSome

/-- HashMap.insert: replace the value under an existing key, else append. -/
def insertA : List (κ × α) → κ → α → List (κ × α)
  | [], k, v => [(k, v)]
  | (k1, v1) :: l, k, v =>
    if k1 = k then (k, v) :: l else (k1, v1) :: insertA l k v

/-- HashMap.remove. -/
def removeA : List (κ × α) → κ → List (κ × α)
  | [], _ => []
  | (k1, v1) :: l, k => if k1 = k then removeA l k else (k1, v1) :: removeA l k

/-- HashMap.entry(k).and_modify(f): modify the value under k if present. -/
def modifyA : List (κ × α) → κ → (α → α) → List (κ × α)
  | [], _, _ => []
  | (k1, v1) :: l, k, f =>
    if k1 = k then (k1, f v1) :: l else (k1, v1) :: modifyA l k f

/-- HashMap.entry(k).or_insert(0) += v for Nat-valued maps. -/
def addToA (l : List (κ × Nat)) (k : κ) (v : Nat) : List (κ × Nat) :=
  if containsA l k then modifyA l k (· + v) else l ++ [(k, v)]

/-- Sum of the values of a Nat-valued map. -/
def sumValues (l : List (κ × Nat)) : Nat := (l.map (·.2)).sum

end AssocList

/-- Apply a fallible function to every element, failing as soon as one
application fails (an iterator of expect-style lookups in the source). -/
def mapO {α β : Type} (f : α → Option β) : List α → Option (List β)
  | [] => some []
  | a :: l =>
    match f a with
    | none => none
    | some b =>
      match mapO f l with
      | none => none
      | some bs => some (b :: bs)

section SortKeyed

variable {α : Type}

/-- Stable insertion by a Nat key, the building block of Vec::sort_by /
Vec::sort_by_key (both are stable sorts in ascending key order). -/
def insertKeyed (f : α → Nat) (x : α) : List α → List α
  | [] => [x]
  | y :: ys => if f x ≤ f y then x :: y :: ys else y :: insertKeyed f x ys

/-- Stable sort in ascending key order, modelling Vec::sort_by /
Vec::sort_by_key. -/
def sortKeyed (f : α → Nat) : List α → List α
  | [] => []
  | x :: xs => insertKeyed f x (sortKeyed f xs)

end SortKeyed

/-- Constant from src/lib/src/lib.rs. -/
def INITIAL_REWARD : Nat := 50

/-- Constant from src/lib/src/lib.rs. -/
def HALVING_INTERVAL : Nat := 210

/-- Constant from src/lib/src/lib.rs. -/
def STAKE_MINIMUM_AMOUNT : Nat := 1000 * 10 ^ 8

/-- Slashing reason, from src/lib/src/types/blockchain.rs. -/
inductive SlashingReason where
  | doubleSigning
  | downtime
deriving DecidableEq

/-- Record of a slashing event, from src/lib/src/types/blockchain.rs. -/
structure SlashingRecord where
  validator : PublicKey
  block_height : Nat
  reason : SlashingReason
  penalty_amount : Nat
deriving DecidableEq

/-- The blockchain state, from src/lib/src/types/blockchain.rs.  The utxos
HashMap from Hash to (bool, TransactionOutput) and the other maps are
modelled as association lists. -/
structure Blockchain where
  utxos : List (Hash × Bool × TransactionOutput)
  blocks : List Block
  mempool : List (Nat × Transaction)
  orphan_children : List (Hash × List Block)
  slashing_history : List SlashingRecord
  slashed_amounts : List (PublicKey × Nat)
deriving DecidableEq

namespace Blockchain

/-- Blockchain::block_height. -/
def block_height (b : Blockchain) : Nat := b.blocks.length

/-- The accumulation loop of Blockchain::calculate_stakes: for every UTXO with
is_stake and locked_until strictly above the current height, add its value to
its pubkey's entry. -/
def stakeAcc (height : Nat) :
    List (Hash × Bool × TransactionOutput) → List (PublicKey × Nat) →
    List (PublicKey × Nat)
  | [], acc => acc
  | (_, _, o) :: rest, acc =>
    stakeAcc height rest
      (if o.is_stake && decide (o.locked_until > height)
       then addToA acc o.pubkey o.value else acc)

/-- Blockchain::calculate_stakes: accumulate active stake by pubkey, subtract
slashed amounts saturating at zero, drop entries below the minimum. -/
def calculate_stakes (b : Blockchain) : List (PublicKey × Nat) :=
  let stakes := stakeAcc b.block_height b.utxos []
  let stakes2 := b.slashed_amounts.foldl
    (fun s p => modifyA s p.1 (fun v => v - p.2)) stakes
  stakes2.filter (fun p => decide (p.2 ≥ STAKE_MINIMUM_AMOUNT))

/-- The selection loop of Blockchain::get_next_validator: running sum over the
sorted stake table; the winner is the first entry whose running sum strictly
exceeds the random value. -/
def selectLoop : List (PublicKey × Nat) → Nat → Nat → Option PublicKey
  | [], _, _ => none
  | (pk, s) :: rest, acc, rand =>
    if acc + s > rand then some pk else selectLoop rest (acc + s) rand

/-- Vec::sort_by(|a, b| a.0.cmp(&b.0)): stable sort ascending by pubkey. -/
def sortByKey (l : List (PublicKey × Nat)) : List (PublicKey × Nat) :=
  sortKeyed (·.1) l

/-- Blockchain::get_next_validator. -/
def get_next_validator (b : Blockchain) (seed : Hash) : Option PublicKey :=
  let stakes := b.calculate_stakes
  let total := sumValues stakes
  if total = 0 then none
  else
    let rand := Hash.firstEightBE seed % total
    selectLoop (sortByKey stakes) 0 rand

/-- Blockchain::calculate_block_reward.  The source computes
(INITIAL_REWARD * 10^8) >> (height / HALVING_INTERVAL) on u64.  A u64 shift
by 64 or more bits overflows in Rust (panic under checked arithmetic, masked
shift amount in release builds); either way the result is not the
mathematical right shift, so that case is modelled as none. -/
def calculate_block_reward (b : Blockchain) : Option Nat :=
  let halvings := b.block_height / HALVING_INTERVAL
  if halvings < 64 then some ((INITIAL_REWARD * 10 ^ 8) >>> halvings)
  else none

/-- One transaction step of Blockchain::rebuild_utxos: remove every input's
referenced output, then insert every output unmarked. -/
def applyTx (C : CryptoModel) (u : List (Hash × Bool × TransactionOutput))
    (t : Transaction) : List (Hash × Bool × TransactionOutput) :=
  let u1 := t.inputs.foldl (fun m i => removeA m i.prev_transaction_output_hash) u
  t.outputs.foldl (fun m o => insertA m (C.outputHash o) (false, o)) u1

/-- Blockchain::rebuild_utxos. -/
def rebuild_utxos (C : CryptoModel) (b : Blockchain) : Blockchain :=
  { b with utxos :=
      b.blocks.foldl (fun u blk => blk.transactions.foldl (applyTx C) u) b.utxos }

end Blockchain

namespace Block

/-- The per-input loop of Block::verify_transactions for one transaction:
every input must resolve in the UTXO index, must not repeat an input already
seen in this block, and its signature must verify against the referenced
output's pubkey; the values of the resolved outputs are accumulated. -/
def verifyInputs (C : CryptoModel)
    (utxos : List (Hash × Bool × TransactionOutput)) :
    List TransactionInput → List (Hash × TransactionOutput) → Nat →
    Outcome (List (Hash × TransactionOutput) × Nat)
  | [], seen, acc => .ok (seen, acc)
  | i :: rest, seen, acc =>
    match lookupA utxos i.prev_transaction_output_hash with
    | none => .err .invalidTransaction
    | some (_, prev) =>
      if containsA seen i.prev_transaction_output_hash then
        .err .invalidTransaction
      else if !C.sigVerify i.signature i.prev_transaction_output_hash prev.pubkey then
        .err .invalidSignature
      else
        verifyInputs C utxos rest
          (insertA seen i.prev_transaction_output_hash prev) (acc + prev.value)

/-- The loop of Block::verify_transactions over the non-coinbase transactions:
the seen-inputs map is carried across transactions (same-block double-spend
detection) and each transaction must have input value at least output value. -/
def verifyTxs (C : CryptoModel)
    (utxos : List (Hash × Bool × TransactionOutput)) :
    List Transaction → List (Hash × TransactionOutput) → Outcome Unit
  | [], _ => .ok ()
  | t :: rest, seen =>
    match verifyInputs C utxos t.inputs seen 0 with
    | .err e => .err e
    | .panicked => .panicked
    | .ok (seen2, inVal) =>
      let outVal := (t.outputs.map (·.value)).sum
      if inVal < outVal then .err .invalidTransaction
      else verifyTxs C utxos rest seen2

/-- The input-collection loop of Block::calculate_miner_fees: inputs of all
non-coinbase transactions are gathered into one map keyed by referenced-output
hash, erroring on a missing UTXO or duplicate reference. -/
def collectInputs (utxos : List (Hash × Bool × TransactionOutput)) :
    List TransactionInput → List (Hash × TransactionOutput) →
    Outcome (List (Hash × TransactionOutput))
  | [], m => .ok m
  | i :: rest, m =>
    match lookupA utxos i.prev_transaction_output_hash with
    | none => .err .invalidTransaction
    | some (_, prev) =>
      if containsA m i.prev_transaction_output_hash then .err .invalidTransaction
      else collectInputs utxos rest (insertA m i.prev_transaction_output_hash prev)

/-- The output-collection loop of Block::calculate_miner_fees: outputs of all
non-coinbase transactions gathered into one map keyed by output hash, erroring
on a duplicate hash. -/
def collectOutputs (C : CryptoModel) :
    List TransactionOutput → List (Hash × TransactionOutput) →
    Outcome (List (Hash × TransactionOutput))
  | [], m => .ok m
  | o :: rest, m =>
    if containsA m (C.outputHash o) then .err .invalidTransaction
    else collectOutputs C rest (insertA m (C.outputHash o) o)

/-- The transaction loop of Block::calculate_miner_fees, threading both maps
across all non-coinbase transactions. -/
def collectFeeMaps (C : CryptoModel)
    (utxos : List (Hash × Bool × TransactionOutput)) :
    List Transaction → List (Hash × TransactionOutput) →
    List (Hash × TransactionOutput) →
    Outcome (List (Hash × TransactionOutput) × List (Hash × TransactionOutput))
  | [], im, om => .ok (im, om)
  | t :: rest, im, om =>
    match collectInputs utxos t.inputs im with
    | .err e => .err e
    | .panicked => .panicked
    | .ok im2 =>
      match collectOutputs C t.outputs om with
      | .err e => .err e
      | .panicked => .panicked
      | .ok om2 => collectFeeMaps C utxos rest im2 om2

/-- Sum of the values stored in a fee map. -/
def mapValueSum (m : List (Hash × TransactionOutput)) : Nat :=
  (m.map (·.2.value)).sum

/-- Block::calculate_miner_fees.  The source ends with the u64 subtraction
input_value - output_value with no underflow guard; an underflowing
subtraction (a panic under Rust's checked arithmetic, a wrap in release
builds) is modelled as the panicked outcome. -/
def calculate_miner_fees (C : CryptoModel)
    (utxos : List (Hash × Bool × TransactionOutput)) (b : Block) : Outcome Nat :=
  match collectFeeMaps C utxos b.transactions.tail [] [] with
  | .err e => .err e
  | .panicked => .panicked
  | .ok (im, om) =>
    let iv := mapValueSum im
    let ov := mapValueSum om
    if ov ≤ iv then .ok (iv - ov) else .panicked

/-- True when Block::calculate_miner_fees reaches its final u64 subtraction
with input_value strictly below output_value, i.e. when the subtraction
underflows. -/
def minerFeeUnderflows (C : CryptoModel)
    (utxos : List (Hash × Bool × TransactionOutput)) (b : Block) : Bool :=
  match collectFeeMaps C utxos b.transactions.tail [] [] with
  | .ok (im, om) => decide (mapValueSum im < mapValueSum om)
  | _ => false

/-- Block::verify_coinbase_transaction.  The source indexes transactions[0],
which panics on an empty list (unreachable through verify_transactions, which
rejects empty blocks first). -/
def verify_coinbase_transaction (C : CryptoModel)
    (utxos : List (Hash × Bool × TransactionOutput)) (b : Block) : Outcome Unit :=
  match b.transactions with
  | [] => .panicked
  | coinbase :: _ =>
    if coinbase.inputs.length ≠ 0 then .err .invalidTransaction
    else if coinbase.outputs.length = 0 then .err .invalidTransaction
    else
      match calculate_miner_fees C utxos b with
      | .err e => .err e
      | .panicked => .panicked
      | .ok fees =>
        if (coinbase.outputs.map (·.value)).sum ≠ fees then
          .err .invalidTransaction
        else .ok ()

/-- Block::verify_transactions. -/
def verify_transactions (C : CryptoModel)
    (utxos : List (Hash × Bool × TransactionOutput)) (b : Block) : Outcome Unit :=
  if b.transactions.isEmpty then .err .invalidBlock
  else
    match verify_coinbase_transaction C utxos b with
    | .err e => .err e
    | .panicked => .panicked
    | .ok _ => verifyTxs C utxos b.transactions.tail []

end Block

namespace Blockchain

/-- The first validation loop of Blockchain::add_to_mempool: every input must
resolve to a known UTXO, must not be a stake still locked above the current
height, and must not repeat an earlier input of the same transaction. -/
def checkInputsLoop (utxos : List (Hash × Bool × TransactionOutput))
    (height : Nat) : List TransactionInput → List Hash → Outcome Unit
  | [], _ => .ok ()
  | i :: rest, known =>
    match lookupA utxos i.prev_transaction_output_hash with
    | none => .err .invalidTransaction
    | some (_, utxo) =>
      if utxo.is_stake && decide (utxo.locked_until > height) then
        .err .stakeLocked
      else if i.prev_transaction_output_hash ∈ known then
        .err .invalidTransaction
      else checkInputsLoop utxos height rest (i.prev_transaction_output_hash :: known)

/-- Remove the first mempool entry satisfying the predicate, returning it and
the remaining list (models the enumerate-find plus Vec::remove pair). -/
def extractFirst (p : Nat × Transaction → Bool) :
    List (Nat × Transaction) → Option ((Nat × Transaction) × List (Nat × Transaction))
  | [] => none
  | e :: rest =>
    if p e then some (e, rest)
    else (extractFirst p rest).map (fun r => (r.1, e :: r.2))

/-- Clear the marked flag of every UTXO referenced by the transaction's
inputs. -/
def unmarkInputs (u : List (Hash × Bool × TransactionOutput))
    (t : Transaction) : List (Hash × Bool × TransactionOutput) :=
  t.inputs.foldl
    (fun m i => modifyA m i.prev_transaction_output_hash (fun p => (false, p.2))) u

/-- Set the marked flag of every UTXO referenced by the transaction's
inputs. -/
def markInputs (u : List (Hash × Bool × TransactionOutput))
    (t : Transaction) : List (Hash × Bool × TransactionOutput) :=
  t.inputs.foldl
    (fun m i => modifyA m i.prev_transaction_output_hash (fun p => (true, p.2))) u

/-- The supersession loop of Blockchain::add_to_mempool: for each input whose
UTXO is marked, search the mempool for a transaction one of whose OUTPUTS has
that hash; if found, unmark all UTXOs referenced by that entry's inputs and
remove the entry, otherwise clear the flag directly. -/
def supersede (C : CryptoModel) :
    List TransactionInput → List (Hash × Bool × TransactionOutput) →
    List (Nat × Transaction) →
    List (Hash × Bool × TransactionOutput) × List (Nat × Transaction)
  | [], u, mp => (u, mp)
  | i :: rest, u, mp =>
    match lookupA u i.prev_transaction_output_hash with
    | some (true, _) =>
      match extractFirst
          (fun e => e.2.outputs.any
            (fun o => decide (C.outputHash o = i.prev_transaction_output_hash))) mp with
      | some (entry, mp2) => supersede C rest (unmarkInputs u entry.2) mp2
      | none =>
        supersede C rest
          (modifyA u i.prev_transaction_output_hash (fun p => (false, p.2))) mp
    | _ => supersede C rest u mp

/-- Sum of the values of the UTXOs referenced by the transaction's inputs;
none when some referenced UTXO is absent (where the source would panic on its
expect). -/
def inputSum (utxos : List (Hash × Bool × TransactionOutput))
    (t : Transaction) : Option Nat :=
  (mapO
    (fun i => (lookupA utxos i.prev_transaction_output_hash).map (fun p => p.2.value))
    t.inputs).map List.sum

/-- The miner-fee key of the mempool sort in Blockchain::add_to_mempool:
referenced input values minus output values on u64; none models the panic on
a missing UTXO (expect) or on an underflowing u64 subtraction. -/
def txFeeChecked (utxos : List (Hash × Bool × TransactionOutput))
    (t : Transaction) : Option Nat :=
  match inputSum utxos t with
  | none => none
  | some iv =>
    let ov := (t.outputs.map (·.value)).sum
    if ov ≤ iv then some (iv - ov) else none

/-- Vec::sort_by_key on the miner fee: stable sort, ascending key order,
applied to (fee, entry) pairs. -/
def sortByFee (l : List (Nat × Nat × Transaction)) :
    List (Nat × Nat × Transaction) :=
  sortKeyed (·.1) l

/-- Blockchain::add_to_mempool. -/
def add_to_mempool (C : CryptoModel) (b : Blockchain) (now : Nat)
    (t : Transaction) : Outcome Blockchain :=
  let height := b.block_height
  match checkInputsLoop b.utxos height t.inputs [] with
  | .err e => .err e
  | .panicked => .panicked
  | .ok _ =>
    let um := supersede C t.inputs b.utxos b.mempool
    match inputSum um.1 t with
    | none => .panicked
    | some allIn =>
      let allOut := (t.outputs.map (·.value)).sum
      if allIn < allOut then .err .invalidTransaction
      else
        let u3 := markInputs um.1 t
        let mp3 := um.2 ++ [(now, t)]
        match mapO (fun e => txFeeChecked u3 e.2) mp3 with
        | none => .panicked
        | some fees =>
          .ok { b with utxos := u3,
                       mempool := (sortByFee (fees.zip mp3)).map (·.2) }

/-- Push a block onto the orphan cache under its missing parent hash
(orphan_children.entry(prev).or_default().push(block)). -/
def pushOrphanA (l : List (Hash × List Block)) (k : Hash) (blk : Block) :
    List (Hash × List Block) :=
  insertA l k ((lookupA l k).getD [] ++ [blk])

/-- Result of the validation phase of Blockchain::add_block, before any state
mutation: park as orphan, fail with an error, panic inside validation, or
accept. -/
inductive CheckResult where
  | park
  | fail (e : EthError)
  | panickedCheck
  | accept
deriving DecidableEq

/-- The validation phase of Blockchain::add_block, in source order: parent
check (empty chain expects the zero sentinel, otherwise the tip hash;
otherwise the block is parked), then for a non-empty chain the validator
lottery, the block signature over the header hash, the merkle root, the
strictly increasing timestamp, and transaction-set validation. -/
def addBlockChecks (C : CryptoModel) (b : Blockchain) (blk : Block) :
    CheckResult :=
  match b.blocks.getLast? with
  | none =>
    if blk.header.prev_block_hash ≠ Hash.zero then .park else .accept
  | some last =>
    if blk.header.prev_block_hash ≠ C.blockHash last then .park
    else
      match b.get_next_validator blk.header.prev_block_hash with
      | none => .fail .invalidValidator
      | some v =>
        if blk.header.validator ≠ v then .fail .invalidValidator
        else if !C.sigVerify blk.signature (C.headerHash blk.header)
            blk.header.validator then .fail .invalidSignature
        else if C.merkleCalc blk.transactions ≠ blk.header.merkle_root then
          .fail .invalidMerkleRoot
        else if blk.header.timestamp ≤ last.header.timestamp then
          .fail .invalidBlock
        else
          match Block.verify_transactions C b.utxos blk with
          | .err e => .fail e
          | .panicked => .panickedCheck
          | .ok _ => .accept

/-- The mutation performed by Blockchain::add_block once a block is accepted,
before the orphan drain: drop the block's transactions from the mempool (by
transaction hash) and append the block. -/
def appendTail (C : CryptoModel) (b : Blockchain) (blk : Block) : Blockchain :=
  let hs := blk.transactions.map C.txHash
  { b with
    mempool := b.mempool.filter (fun e => !hs.contains (C.txHash e.2)),
    blocks := b.blocks ++ [blk] }

mutual

/-- Blockchain::add_block.  The fuel argument bounds the depth of the mutual
recursion between add_block and the orphan drain; the source loop terminates
because every successful attachment permanently consumes an orphan, and every
theorem below holds for every fuel value.  Exhausted fuel stops draining and
returns the state reached so far. -/
def add_block (C : CryptoModel) (fuel : Nat) (b : Blockchain) (blk : Block) :
    Outcome Blockchain :=
  match addBlockChecks C b blk with
  | .park =>
    .ok { b with orphan_children :=
            pushOrphanA b.orphan_children blk.header.prev_block_hash blk }
  | .fail e => .err e
  | .panickedCheck => .panicked
  | .accept =>
    let b1 := appendTail C b blk
    match fuel with
    | 0 => .ok b1
    | f + 1 =>
      match processOrphans C f [C.blockHash blk] b1 with
      | some b2 => .ok b2
      | none => .panicked

/-- Blockchain::process_orphans: a work-list of parent hashes; for each, the
children registered under it are removed from the cache and re-attempted via
add_block.  The none result propagates a panic from a recursive add_block. -/
def processOrphans (C : CryptoModel) (fuel : Nat) (stack : List Hash)
    (b : Blockchain) : Option Blockchain :=
  match fuel with
  | 0 => some b
  | f + 1 =>
    match stack with
    | [] => some b
    | h :: rest =>
      match lookupA b.orphan_children h with
      | none => processOrphans C f rest b
      | some children =>
        let b2 := { b with orphan_children := removeA b.orphan_children h }
        match processChildren C f children rest b2 with
        | none => none
        | some sb => processOrphans C f sb.1 sb.2

/-- The for-loop of Blockchain::process_orphans over the children of one
parent: each child is re-attempted; on success the new tip hash is pushed on
the work list, on an error the child is dropped. -/
def processChildren (C : CryptoModel) (fuel : Nat) (children : List Block)
    (stack : List Hash) (b : Blockchain) : Option (List Hash × Blockchain) :=
  match fuel with
  | 0 => some (stack, b)
  | f + 1 =>
    match children with
    | [] => some (stack, b)
    | c :: cs =>
      match add_block C f b c with
      | .err _ => processChildren C f cs stack b
      | .panicked => none
      | .ok b2 =>
        match b2.blocks.getLast? with
        | none => processChildren C f cs stack b2
        | some lastB => processChildren C f cs (C.blockHash lastB :: stack) b2

end

end Blockchain

/-! ### Generic lemmas: mapO -/

theorem mapO_cons_eq_some {α β : Type} {f : α → Option β} {a : α} {l : List α}
    {ys : List β} (h : mapO f (a :: l) = some ys) :
    ∃ b bs, f a = some b ∧ mapO f l = some bs ∧ ys = b :: bs := by
  unfold mapO at h
  cases hfa : f a with
  | none => rw [hfa] at h; exact absurd h (by simp)
  | some b =>
    rw [hfa] at h
    cases hfl : mapO f l with
    | none => rw [hfl] at h; exact absurd h (by simp)
    | some bs =>
      rw [hfl] at h
      exact ⟨b, bs, rfl, rfl, by simpa using h.symm⟩

theorem mapO_of_forall {α β : Type} {f : α → Option β} {g : α → β} :
    ∀ {l : List α}, (∀ a ∈ l, f a = some (g a)) → mapO f l = some (l.map g)
  | [], _ => rfl
  | a :: l, h => by
    have ha := h a (by simp)
    have hl := mapO_of_forall (f := f) (g := g)
      (fun x hx => h x (List.mem_cons_of_mem a hx))
    simp [mapO, ha, hl]

theorem mapO_zip_prop {α β : Type} {f : α → Option β} :
    ∀ {l : List α} {ys : List β}, mapO f l = some ys →
      ∀ p ∈ ys.zip l, f p.2 = some p.1
  | [], ys, h => by
    simp [mapO] at h
    subst h
    intro p hp
    simp at hp
  | a :: l, ys, h => by
    obtain ⟨b, bs, hfa, hfl, rfl⟩ := mapO_cons_eq_some h
    intro p hp
    rcases List.mem_cons.mp (by simpa [List.zip] using hp) with hp1 | hp2
    · subst hp1; exact hfa
    · exact mapO_zip_prop hfl p (by simpa [List.zip] using hp2)

theorem mapO_length {α β : Type} {f : α → Option β} :
    ∀ {l : List α} {ys : List β}, mapO f l = some ys → ys.length = l.length
  | [], ys, h => by simp [mapO] at h; simp [h.symm]
  | a :: l, ys, h => by
    obtain ⟨b, bs, _, hfl, rfl⟩ := mapO_cons_eq_some h
    simp [mapO_length hfl]

/-! ### Generic lemmas: association lists -/

section AssocLemmas

variable {κ α : Type} [DecidableEq κ]

theorem lookupA_eq_none_of_not_mem :
    ∀ (l : List (κ × α)) (k : κ), k ∉ l.map (·.1) → lookupA l k = none
  | [], _, _ => rfl
  | (k1, v1) :: l, k, h => by
    rw [List.map_cons] at h
    have h1 : ¬k1 = k := fun he => h (he ▸ List.mem_cons_self k1 _)
    have h2 : k ∉ l.map (·.1) := fun hm => h (List.mem_cons_of_mem _ hm)
    simpa [lookupA, h1] using lookupA_eq_none_of_not_mem l k h2

theorem mem_of_lookupA_eq_some :
    ∀ {l : List (κ × α)} {k : κ} {v : α}, lookupA l k = some v → k ∈ l.map (·.1)
  | [], k, v, h => by simp [lookupA] at h
  | (k1, v1) :: l, k, v, h => by
    by_cases he : k1 = k
    · simp [he]
    · simp only [lookupA, if_neg he] at h
      simpa using Or.inr (mem_of_lookupA_eq_some h)

theorem exists_lookupA_of_mem :
    ∀ (l : List (κ × α)) (k : κ), k ∈ l.map (·.1) → ∃ v, lookupA l k = some v
  | [], k, h => by simp at h
  | (k1, v1) :: l, k, h => by
    by_cases he : k1 = k
    · exact ⟨v1, by simp [lookupA, he]⟩
    · have : k ∈ l.map (·.1) := by
        simp at h
        rcases h with h1 | h2
        · exact absurd h1.symm he
        · simpa using h2
      obtain ⟨v, hv⟩ := exists_lookupA_of_mem l k this
      exact ⟨v, by simp [lookupA, he, hv]⟩

theorem lookupA_insertA_self :
    ∀ (l : List (κ × α)) (k : κ) (v : α), lookupA (insertA l k v) k = some v
  | [], k, v => by simp [insertA, lookupA]
  | (k1, v1) :: l, k, v => by
    by_cases he : k1 = k
    · simp [insertA, he, lookupA]
    · simpa [insertA, he, lookupA] using lookupA_insertA_self l k v

theorem lookupA_insertA_ne :
    ∀ (l : List (κ × α)) (k k2 : κ) (v : α), k2 ≠ k →
      lookupA (insertA l k v) k2 = lookupA l k2
  | [], k, k2, v, h => by
    have hkk : ¬k = k2 := fun hh => h hh.symm
    simp [insertA, lookupA, hkk]
  | (k1, v1) :: l, k, k2, v, h => by
    have hkk : ¬k = k2 := fun hh => h hh.symm
    by_cases he : k1 = k
    · have h12 : ¬k1 = k2 := fun hh => h (hh.symm.trans he)
      simp [insertA, he, lookupA, hkk, h12]
    · by_cases he2 : k1 = k2
      · simp [insertA, he, lookupA, he2, h]
      · simp only [insertA, if_neg he, lookupA, if_neg he2]
        exact lookupA_insertA_ne l k k2 v h

theorem insertA_of_not_contains :
    ∀ (l : List (κ × α)) (k : κ) (v : α), containsA l k = false →
      insertA l k v = l ++ [(k, v)]
  | [], k, v, _ => rfl
  | (k1, v1) :: l, k, v, h => by
    by_cases he : k1 = k
    · simp [containsA, lookupA, he] at h
    · simp only [containsA, lookupA, if_neg he] at h
      simp [insertA, he, insertA_of_not_contains l k v h]

theorem lookupA_removeA_self :
    ∀ (l : List (κ × α)) (k : κ), lookupA (removeA l k) k = none
  | [], _ => rfl
  | (k1, v1) :: l, k => by
    by_cases he : k1 = k
    · simpa [removeA, he] using lookupA_removeA_self l k
    · simpa [removeA, he, lookupA] using lookupA_removeA_self l k

theorem lookupA_removeA_ne :
    ∀ (l : List (κ × α)) (k k2 : κ), k2 ≠ k →
      lookupA (removeA l k) k2 = lookupA l k2
  | [], _, _, _ => rfl
  | (k1, v1) :: l, k, k2, h => by
    by_cases he : k1 = k
    · have h12 : ¬k1 = k2 := fun hh => h (hh.symm.trans he)
      simp only [removeA, if_pos he, lookupA, if_neg h12]
      exact lookupA_removeA_ne l k k2 h
    · by_cases he2 : k1 = k2
      · simp [removeA, he, lookupA, he2, h]
      · simp only [removeA, if_neg he, lookupA, if_neg he2]
        exact lookupA_removeA_ne l k k2 h

theorem lookupA_modifyA_self :
    ∀ (l : List (κ × α)) (k : κ) (f : α → α),
      lookupA (modifyA l k f) k = (lookupA l k).map f
  | [], _, _ => rfl
  | (k1, v1) :: l, k, f => by
    by_cases he : k1 = k
    · simp [modifyA, he, lookupA]
    · simpa [modifyA, he, lookupA] using lookupA_modifyA_self l k f

theorem lookupA_modifyA_ne :
    ∀ (l : List (κ × α)) (k k2 : κ) (f : α → α), k2 ≠ k →
      lookupA (modifyA l k f) k2 = lookupA l k2
  | [], _, _, _, _ => rfl
  | (k1, v1) :: l, k, k2, f, h => by
    have hkk : ¬k = k2 := fun hh => h hh.symm
    by_cases he : k1 = k
    · have h12 : ¬k1 = k2 := fun hh => h (hh.symm.trans he)
      simp [modifyA, he, lookupA, h12, hkk]
    · by_cases he2 : k1 = k2
      · simp [modifyA, he, lookupA, he2, h]
      · simp only [modifyA, if_neg he, lookupA, if_neg he2]
        exact lookupA_modifyA_ne l k k2 f h

theorem modifyA_keys :
    ∀ (l : List (κ × α)) (k : κ) (f : α → α),
      (modifyA l k f).map (·.1) = l.map (·.1)
  | [], _, _ => rfl
  | (k1, v1) :: l, k, f => by
    by_cases he : k1 = k
    · simp [modifyA, he]
    · simp [modifyA, he, modifyA_keys l k f]

end AssocLemmas

section AddToLemmas

variable {κ : Type} [DecidableEq κ]

theorem containsA_iff (l : List (κ × Nat)) (k : κ) :
    containsA l k = true ↔ ∃ v, lookupA l k = some v := by
  unfold containsA
  cases h : lookupA l k <;> simp

theorem lookupA_eq_none_of_not_contains {l : List (κ × Nat)} {k : κ}
    (h : ¬containsA l k = true) : lookupA l k = none := by
  cases hl : lookupA l k with
  | none => rfl
  | some w => exact absurd ((containsA_iff l k).mpr ⟨w, hl⟩) h

theorem lookupA_addToA_self (l : List (κ × Nat)) (k : κ) (v : Nat) :
    lookupA (addToA l k v) k = some ((lookupA l k).getD 0 + v) := by
  unfold addToA
  by_cases h : containsA l k
  · obtain ⟨w, hw⟩ := (containsA_iff l k).mp h
    simp [h, lookupA_modifyA_self, hw]
  · have hnone := lookupA_eq_none_of_not_contains h
    have happ : l ++ [(k, v)] = insertA l k v :=
      (insertA_of_not_contains l k v (by simpa using h)).symm
    simp only [h, if_false, happ, hnone]
    simp [lookupA_insertA_self]

theorem lookupA_addToA_ne (l : List (κ × Nat)) (k k2 : κ) (v : Nat)
    (h : k2 ≠ k) : lookupA (addToA l k v) k2 = lookupA l k2 := by
  unfold addToA
  by_cases hc : containsA l k
  · simp [hc, lookupA_modifyA_ne _ _ _ _ h]
  · have happ : l ++ [(k, v)] = insertA l k v :=
      (insertA_of_not_contains l k v (by simpa using hc)).symm
    simp only [hc, if_false, happ]
    exact lookupA_insertA_ne l k k2 v h

theorem addToA_keys_nodup (l : List (κ × Nat)) (k : κ) (v : Nat)
    (h : (l.map (·.1)).Nodup) : ((addToA l k v).map (·.1)).Nodup := by
  unfold addToA
  by_cases hc : containsA l k
  · simpa [hc, modifyA_keys] using h
  · have hnone := lookupA_eq_none_of_not_contains hc
    have hk : k ∉ l.map (·.1) := fun hmem => by
      obtain ⟨v2, hv2⟩ := exists_lookupA_of_mem l k hmem
      rw [hnone] at hv2
      exact absurd hv2 (by simp)
    rw [if_neg hc, List.map_append]
    exact List.Nodup.append h (by simp) (by
      intro a ha hb
      simp at hb
      subst hb
      exact hk ha)

end AddToLemmas

/-! ### Generic lemmas: the stable key sort -/

section SortLemmas

variable {α : Type} (f : α → Nat)

theorem insertKeyed_perm (x : α) :
    ∀ l : List α, (insertKeyed f x l).Perm (x :: l)
  | [] => List.Perm.refl _
  | y :: ys => by
    by_cases h : f x ≤ f y
    · rw [insertKeyed, if_pos h]
    · rw [insertKeyed, if_neg h]
      exact ((insertKeyed_perm x ys).cons y).trans (List.Perm.swap x y ys)

theorem sortKeyed_perm : ∀ l : List α, (sortKeyed f l).Perm l
  | [] => List.Perm.refl _
  | x :: xs => by
    rw [sortKeyed]
    exact (insertKeyed_perm f x (sortKeyed f xs)).trans
      ((sortKeyed_perm xs).cons x)

theorem insertKeyed_pairwise (x : α) :
    ∀ l : List α, List.Pairwise (fun a b => f a ≤ f b) l →
      List.Pairwise (fun a b => f a ≤ f b) (insertKeyed f x l)
  | [], _ => by simp [insertKeyed]
  | y :: ys, h => by
    rcases List.pairwise_cons.mp h with ⟨hy, hys⟩
    by_cases hxy : f x ≤ f y
    · rw [insertKeyed, if_pos hxy]
      refine List.pairwise_cons.mpr ⟨?_, h⟩
      intro b hb
      rcases List.mem_cons.mp hb with rfl | hb2
      · exact hxy
      · exact le_trans hxy (hy b hb2)
    · rw [insertKeyed, if_neg hxy]
      refine List.pairwise_cons.mpr ⟨?_, insertKeyed_pairwise x ys hys⟩
      intro b hb
      have hmem := (insertKeyed_perm f x ys).mem_iff.mp hb
      rcases List.mem_cons.mp hmem with rfl | hb2
      · exact le_of_not_le hxy
      · exact hy b hb2

theorem sortKeyed_pairwise :
    ∀ l : List α, List.Pairwise (fun a b => f a ≤ f b) (sortKeyed f l)
  | [] => List.Pairwise.nil
  | x :: xs => insertKeyed_pairwise f x _ (sortKeyed_pairwise xs)

end SortLemmas

/-! ### UTXO rebuild as a sequence of per-key operations (for idempotence) -/

/-- A single UTXO-index operation performed by rebuild_utxos. -/
inductive UtxoOp where
  | del (h : Hash)
  | put (h : Hash) (o : TransactionOutput)

/-- The operations one transaction performs on the UTXO index during
rebuild_utxos: remove all inputs, then insert all outputs unmarked. -/
def opsOfTx (C : CryptoModel) (t : Transaction) : List UtxoOp :=
  t.inputs.map (fun i => .del i.prev_transaction_output_hash) ++
    t.outputs.map (fun o => .put (C.outputHash o) o)

/-- All operations rebuild_utxos performs, in order. -/
def opsOfBlocks (C : CryptoModel) (blocks : List Block) : List UtxoOp :=
  (blocks.map (fun blk => (blk.transactions.map (opsOfTx C)).flatten)).flatten

/-- Apply one operation to the UTXO index. -/
def applyOp (u : List (Hash × Bool × TransactionOutput)) :
    UtxoOp → List (Hash × Bool × TransactionOutput)
  | .del h => removeA u h
  | .put h o => insertA u h (false, o)

/-- Apply a list of operations in order. -/
def applyOps (u : List (Hash × Bool × TransactionOutput)) (ops : List UtxoOp) :
    List (Hash × Bool × TransactionOutput) :=
  ops.foldl applyOp u

/-- The effect the last operation touching key k has, if any. -/
def opEffect (op : UtxoOp) (k : Hash) :
    Option (Option (Bool × TransactionOutput)) :=
  match op with
  | .del h => if h = k then some none else none
  | .put h o => if h = k then some (some (false, o)) else none

/-- The net effect of an operation list on key k: the effect of the last
operation that touches k, if any. -/
def opsEffect : List UtxoOp → Hash → Option (Option (Bool × TransactionOutput))
  | [], _ => none
  | op :: rest, k =>
    match opsEffect rest k with
    | some r => some r
    | none => opEffect op k

theorem applyOps_append (u : List (Hash × Bool × TransactionOutput))
    (a b : List UtxoOp) : applyOps u (a ++ b) = applyOps (applyOps u a) b := by
  unfold applyOps
  exact List.foldl_append _ _ _ _

theorem lookupA_applyOp (u : List (Hash × Bool × TransactionOutput))
    (op : UtxoOp) (k : Hash) :
    lookupA (applyOp u op) k =
      match opEffect op k with
      | some r => r
      | none => lookupA u k := by
  cases op with
  | del h =>
    by_cases hk : h = k
    · subst hk
      simp [applyOp, opEffect, lookupA_removeA_self]
    · simp [applyOp, opEffect, hk, lookupA_removeA_ne u h k (fun hh => hk hh.symm)]
  | put h o =>
    by_cases hk : h = k
    · subst hk
      simp [applyOp, opEffect, lookupA_insertA_self]
    · simp [applyOp, opEffect, hk, lookupA_insertA_ne u h k _ (fun hh => hk hh.symm)]

theorem lookupA_applyOps :
    ∀ (ops : List UtxoOp) (u : List (Hash × Bool × TransactionOutput)) (k : Hash),
      lookupA (applyOps u ops) k =
        match opsEffect ops k with
        | some r => r
        | none => lookupA u k
  | [], u, k => rfl
  | op :: rest, u, k => by
    have step : applyOps u (op :: rest) = applyOps (applyOp u op) rest := rfl
    rw [step, lookupA_applyOps rest (applyOp u op) k, lookupA_applyOp]
    cases h : opsEffect rest k with
    | some r => simp only [opsEffect, h]
    | none => simp only [opsEffect, h]

theorem lookupA_applyOps_idem (ops : List UtxoOp)
    (u : List (Hash × Bool × TransactionOutput)) (k : Hash) :
    lookupA (applyOps (applyOps u ops) ops) k = lookupA (applyOps u ops) k := by
  rw [lookupA_applyOps, lookupA_applyOps]
  cases h : opsEffect ops k with
  | some r => simp
  | none => simp [lookupA_applyOps, h]

theorem applyTx_eq_ops (C : CryptoModel)
    (u : List (Hash × Bool × TransactionOutput)) (t : Transaction) :
    Blockchain.applyTx C u t = applyOps u (opsOfTx C t) := by
  unfold Blockchain.applyTx opsOfTx
  rw [applyOps_append]
  unfold applyOps
  rw [List.foldl_map, List.foldl_map]
  rfl

theorem foldTxs_eq_ops (C : CryptoModel) :
    ∀ (txs : List Transaction) (u : List (Hash × Bool × TransactionOutput)),
      txs.foldl (Blockchain.applyTx C) u =
        applyOps u ((txs.map (opsOfTx C)).flatten)
  | [], u => rfl
  | t :: txs, u => by
    rw [List.foldl_cons, List.map_cons, List.flatten_cons, applyOps_append,
      ← applyTx_eq_ops]
    exact foldTxs_eq_ops C txs _

theorem foldBlocks_eq_ops (C : CryptoModel) :
    ∀ (blocks : List Block) (u : List (Hash × Bool × TransactionOutput)),
      blocks.foldl (fun u blk => blk.transactions.foldl (Blockchain.applyTx C) u) u =
        applyOps u (opsOfBlocks C blocks)
  | [], u => rfl
  | blk :: blocks, u => by
    rw [List.foldl_cons]
    unfold opsOfBlocks
    rw [List.map_cons, List.flatten_cons, applyOps_append, ← foldTxs_eq_ops]
    exact foldBlocks_eq_ops C blocks _

theorem rebuild_utxos_as_ops (C : CryptoModel) (b : Blockchain) :
    (b.rebuild_utxos C).utxos = applyOps b.utxos (opsOfBlocks C b.blocks) := by
  unfold Blockchain.rebuild_utxos
  exact foldBlocks_eq_ops C b.blocks b.utxos

/-! ### The active stake table, characterised (for the validator lottery) -/

/-- The condition under which calculate_stakes counts a UTXO: a stake output
still locked strictly above the current height. -/
def activeFlag (height : Nat) (o : TransactionOutput) : Bool :=
  o.is_stake && decide (o.locked_until > height)

/-- Sum of the values of the active UTXOs of one pubkey, stated directly as a
filtered sum (this is the claim-side description of the accumulation). -/
def activeSumIn (height : Nat) (l : List (Hash × Bool × TransactionOutput))
    (pk : PublicKey) : Nat :=
  ((l.filter (fun e => activeFlag height e.2.2 && decide (e.2.2.pubkey = pk))).map
    (fun e => e.2.2.value)).sum

/-- Whether some active UTXO belongs to the pubkey. -/
def hasActiveIn (height : Nat) (l : List (Hash × Bool × TransactionOutput))
    (pk : PublicKey) : Bool :=
  l.any (fun e => activeFlag height e.2.2 && decide (e.2.2.pubkey = pk))

theorem activeSumIn_cons (height : Nat) (e : Hash × Bool × TransactionOutput)
    (l : List (Hash × Bool × TransactionOutput)) (pk : PublicKey) :
    activeSumIn height (e :: l) pk =
      (if activeFlag height e.2.2 && decide (e.2.2.pubkey = pk)
       then e.2.2.value else 0) + activeSumIn height l pk := by
  unfold activeSumIn
  rw [List.filter_cons]
  by_cases h : activeFlag height e.2.2 && decide (e.2.2.pubkey = pk)
  · simp [h]
  · simp [h]

theorem hasActiveIn_cons (height : Nat) (e : Hash × Bool × TransactionOutput)
    (l : List (Hash × Bool × TransactionOutput)) (pk : PublicKey) :
    hasActiveIn height (e :: l) pk =
      ((activeFlag height e.2.2 && decide (e.2.2.pubkey = pk)) ||
        hasActiveIn height l pk) := by
  unfold hasActiveIn
  simp [List.any_cons]

theorem stakeAcc_lookup (height : Nat) :
    ∀ (l : List (Hash × Bool × TransactionOutput)) (acc : List (PublicKey × Nat))
      (pk : PublicKey),
      lookupA (Blockchain.stakeAcc height l acc) pk =
        match lookupA acc pk with
        | some s => some (s + activeSumIn height l pk)
        | none =>
          if hasActiveIn height l pk then some (activeSumIn height l pk) else none
  | [], acc, pk => by
    cases h : lookupA acc pk <;>
      simp [Blockchain.stakeAcc, activeSumIn, hasActiveIn, h]
  | (hs, m, o) :: l, acc, pk => by
    rw [Blockchain.stakeAcc]
    by_cases hact : activeFlag height o = true
    · by_cases hpk : o.pubkey = pk
      · have hcond : (o.is_stake && decide (o.locked_until > height)) = true := hact
        rw [if_pos hcond]
        rw [stakeAcc_lookup height l (addToA acc o.pubkey o.value) pk]
        rw [hpk, lookupA_addToA_self]
        rw [activeSumIn_cons, hasActiveIn_cons]
        have hc : (activeFlag height (hs, m, o).2.2 &&
            decide ((hs, m, o).2.2.pubkey = pk)) = true := by
          simp [hact, hpk]
        rw [hc]
        cases hacc : lookupA acc pk with
        | some s => simp [hacc, Nat.add_assoc]
        | none => simp [hacc]
      · have hcond : (o.is_stake && decide (o.locked_until > height)) = true := hact
        rw [if_pos hcond]
        rw [stakeAcc_lookup height l (addToA acc o.pubkey o.value) pk]
        rw [lookupA_addToA_ne acc o.pubkey pk o.value (fun hh => hpk hh.symm)]
        rw [activeSumIn_cons, hasActiveIn_cons]
        have hc : (activeFlag height (hs, m, o).2.2 &&
            decide ((hs, m, o).2.2.pubkey = pk)) = false := by
          simp [hpk]
        rw [hc]
        cases hacc : lookupA acc pk <;> simp [hacc]
    · have hcond : (o.is_stake && decide (o.locked_until > height)) = false := by
        cases hb : activeFlag height o
        · exact hb
        · exact absurd hb hact
      rw [hcond, if_neg (by simp)]
      rw [stakeAcc_lookup height l acc pk]
      rw [activeSumIn_cons, hasActiveIn_cons]
      have hc : (activeFlag height (hs, m, o).2.2 &&
          decide ((hs, m, o).2.2.pubkey = pk)) = false := by
        simp only [Bool.and_eq_false_iff]
        left
        exact hcond
      rw [hc]
      cases hacc : lookupA acc pk <;> simp [hacc]

theorem stakeAcc_keys_nodup (height : Nat) :
    ∀ (l : List (Hash × Bool × TransactionOutput)) (acc : List (PublicKey × Nat)),
      (acc.map (·.1)).Nodup →
      ((Blockchain.stakeAcc height l acc).map (·.1)).Nodup
  | [], acc, h => h
  | (hs, m, o) :: l, acc, h => by
    rw [Blockchain.stakeAcc]
    by_cases hcond : (o.is_stake && decide (o.locked_until > height)) = true
    · rw [if_pos hcond]
      exact stakeAcc_keys_nodup height l _ (addToA_keys_nodup acc o.pubkey o.value h)
    · rw [if_neg hcond]
      exact stakeAcc_keys_nodup height l acc h

/-- Total slashed amount recorded for a pubkey (claim-side description). -/
def slashedTotalIn (sl : List (PublicKey × Nat)) (pk : PublicKey) : Nat :=
  ((sl.filter (fun e => decide (e.1 = pk))).map (·.2)).sum

theorem slashFold_lookup :
    ∀ (sl : List (PublicKey × Nat)) (stakes : List (PublicKey × Nat))
      (pk : PublicKey),
      lookupA (sl.foldl (fun s p => modifyA s p.1 (fun v => v - p.2)) stakes) pk =
        (lookupA stakes pk).map (fun v => v - slashedTotalIn sl pk)
  | [], stakes, pk => by
    cases h : lookupA stakes pk <;> simp [slashedTotalIn, h]
  | (q, a) :: sl, stakes, pk => by
    rw [List.foldl_cons]
    rw [slashFold_lookup sl (modifyA stakes q (fun v => v - a)) pk]
    by_cases hq : q = pk
    · subst hq
      rw [lookupA_modifyA_self]
      have : slashedTotalIn ((q, a) :: sl) q = a + slashedTotalIn sl q := by
        simp [slashedTotalIn, List.filter_cons]
      rw [this]
      cases h : lookupA stakes q <;> simp [h, Nat.sub_sub]
    · rw [lookupA_modifyA_ne stakes q pk _ (fun hh => hq hh.symm)]
      have : slashedTotalIn ((q, a) :: sl) pk = slashedTotalIn sl pk := by
        simp [slashedTotalIn, List.filter_cons, fun hh : q = pk => hq hh]
      rw [this]

theorem slashFold_keys :
    ∀ (sl : List (PublicKey × Nat)) (stakes : List (PublicKey × Nat)),
      ((sl.foldl (fun s p => modifyA s p.1 (fun v => v - p.2)) stakes).map (·.1)) =
        stakes.map (·.1)
  | [], stakes => rfl
  | (q, a) :: sl, stakes => by
    rw [List.foldl_cons, slashFold_keys sl _, modifyA_keys]

theorem lookupA_filter_nodup {κ α : Type} [DecidableEq κ] (p : κ × α → Bool) :
    ∀ (l : List (κ × α)), ((l.map (·.1)).Nodup) → ∀ k,
      lookupA (l.filter p) k =
        match lookupA l k with
        | some v => if p (k, v) then some v else none
        | none => none
  | [], _, k => rfl
  | (k1, v1) :: l, hnd, k => by
    rw [List.map_cons] at hnd
    have hnd2 : (l.map (·.1)).Nodup := (List.nodup_cons.mp hnd).2
    have hk1 : k1 ∉ l.map (·.1) := (List.nodup_cons.mp hnd).1
    rw [List.filter_cons]
    by_cases he : k1 = k
    · subst he
      have hnone : lookupA (l.filter p) k1 = none := by
        apply lookupA_eq_none_of_not_mem
        intro hmem
        apply hk1
        simp at hmem
        obtain ⟨v2, hv2⟩ := hmem
        exact List.mem_map.mpr ⟨(k1, v2), hv2.1, rfl⟩
      by_cases hp : p (k1, v1) = true
      · simp [hp, lookupA]
      · simp only [hp, Bool.false_eq_true, if_false]
        simp [lookupA, hnone, hp]
    · by_cases hp : p (k1, v1) = true
      · simp only [hp, if_true]
        rw [lookupA, if_neg he, lookupA, if_neg he]
        exact lookupA_filter_nodup p l hnd2 k
      · simp only [hp, Bool.false_eq_true, if_false]
        rw [lookupA, if_neg he]
        exact lookupA_filter_nodup p l hnd2 k

/-- Active stake of a pubkey in the claim's words: accumulated value of its
stake UTXOs locked strictly above the current height, minus its slashed
amount, saturating at zero. -/
def specStakeOf (b : Blockchain) (pk : PublicKey) : Nat :=
  activeSumIn b.block_height b.utxos pk - slashedTotalIn b.slashed_amounts pk

/-- Whether the pubkey owns at least one active stake UTXO. -/
def hasActiveStake (b : Blockchain) (pk : PublicKey) : Bool :=
  hasActiveIn b.block_height b.utxos pk

theorem calculate_stakes_lookup (b : Blockchain) (pk : PublicKey) :
    lookupA b.calculate_stakes pk =
      if hasActiveStake b pk then
        (if STAKE_MINIMUM_AMOUNT ≤ specStakeOf b pk
         then some (specStakeOf b pk) else none)
      else none := by
  unfold Blockchain.calculate_stakes
  have hnd : ((Blockchain.stakeAcc b.block_height b.utxos []).map (·.1)).Nodup :=
    stakeAcc_keys_nodup b.block_height b.utxos [] (by simp)
  have hnd2 : (((b.slashed_amounts.foldl
      (fun s p => modifyA s p.1 (fun v => v - p.2))
      (Blockchain.stakeAcc b.block_height b.utxos [])).map (·.1))).Nodup := by
    rw [slashFold_keys]
    exact hnd
  rw [lookupA_filter_nodup _ _ hnd2 pk]
  rw [slashFold_lookup]
  rw [stakeAcc_lookup b.block_height b.utxos [] pk]
  simp only [lookupA]
  unfold hasActiveStake specStakeOf
  by_cases hact : hasActiveIn b.block_height b.utxos pk = true
  · rw [if_pos hact, if_pos hact]
    by_cases hmin : STAKE_MINIMUM_AMOUNT ≤
        activeSumIn b.block_height b.utxos pk - slashedTotalIn b.slashed_amounts pk
    · rw [if_pos hmin]
      simp [ge_iff_le, hmin]
    · rw [if_neg hmin]
      simp [ge_iff_le, hmin]
  · rw [if_neg hact, if_neg hact]
    rfl

theorem sumValues_perm {κ : Type} {l1 l2 : List (κ × Nat)} (h : l1.Perm l2) :
    sumValues l1 = sumValues l2 := by
  unfold sumValues
  exact (h.map (·.2)).sum_eq

theorem selectLoop_some_decomp :
    ∀ (l : List (PublicKey × Nat)) (acc rand : Nat) (pk : PublicKey),
      acc ≤ rand → Blockchain.selectLoop l acc rand = some pk →
      ∃ pre s post, l = pre ++ (pk, s) :: post ∧
        acc + sumValues pre ≤ rand ∧ rand < acc + sumValues pre + s
  | [], acc, rand, pk, _, h => by simp [Blockchain.selectLoop] at h
  | (q, s0) :: rest, acc, rand, pk, hacc, h => by
    rw [Blockchain.selectLoop] at h
    by_cases hgt : acc + s0 > rand
    · rw [if_pos hgt] at h
      refine ⟨[], s0, rest, ?_, ?_, ?_⟩
      · simpa using (Option.some.injEq _ _ ▸ h).symm ▸ rfl
      · simpa [sumValues] using hacc
      · simpa [sumValues] using hgt
    · rw [if_neg hgt] at h
      have hle : acc + s0 ≤ rand := Nat.le_of_not_lt hgt
      obtain ⟨pre, s, post, hl, h1, h2⟩ :=
        selectLoop_some_decomp rest (acc + s0) rand pk hle h
      refine ⟨(q, s0) :: pre, s, post, by rw [hl, List.cons_append], ?_, ?_⟩
      · have : sumValues ((q, s0) :: pre) = s0 + sumValues pre := by
          simp [sumValues]
        omega
      · have : sumValues ((q, s0) :: pre) = s0 + sumValues pre := by
          simp [sumValues]
        omega

theorem selectLoop_isSome :
    ∀ (l : List (PublicKey × Nat)) (acc rand : Nat),
      acc ≤ rand → rand < acc + sumValues l →
      (Blockchain.selectLoop l acc rand).isSome = true
  | [], acc, rand, hacc, hlt => by
    simp [sumValues] at hlt
    omega
  | (q, s0) :: rest, acc, rand, hacc, hlt => by
    rw [Blockchain.selectLoop]
    by_cases hgt : acc + s0 > rand
    · rw [if_pos hgt]; rfl
    · rw [if_neg hgt]
      have hle : acc + s0 ≤ rand := Nat.le_of_not_lt hgt
      apply selectLoop_isSome rest (acc + s0) rand hle
      have : sumValues ((q, s0) :: rest) = s0 + sumValues rest := by
        simp [sumValues]
      omega

/-- C1: get_next_validator returns none exactly when the total active stake is
zero; otherwise the winner is the first entry, in the stake table sorted by
pubkey ascending, whose running stake sum strictly exceeds the first 8 bytes
of the seed hash read as a big-endian u64 and reduced modulo the total stake;
and the active stake table holds, per pubkey, the accumulated value of its
stake UTXOs with locked_until strictly above the current height, minus its
slashed amount saturating at zero, dropping entries below
STAKE_MINIMUM_AMOUNT. -/
theorem c1_validator_lottery (b : Blockchain) (seed : Hash) :
    (b.get_next_validator seed = none ↔ sumValues b.calculate_stakes = 0) ∧
    (∀ pk v, lookupA b.calculate_stakes pk = some v ↔
      (hasActiveStake b pk = true ∧ v = specStakeOf b pk ∧
        STAKE_MINIMUM_AMOUNT ≤ v)) ∧
    (∀ pk, b.get_next_validator seed = some pk →
      ∃ pre s post,
        Blockchain.sortByKey b.calculate_stakes = pre ++ (pk, s) :: post ∧
        List.Pairwise (fun x y => x.1 ≤ y.1) (pre ++ (pk, s) :: post) ∧
        (pre ++ (pk, s) :: post).Perm b.calculate_stakes ∧
        sumValues pre ≤ Hash.firstEightBE seed % sumValues b.calculate_stakes ∧
        Hash.firstEightBE seed % sumValues b.calculate_stakes <
          sumValues pre + s) := by
  have hsorted_perm : (Blockchain.sortByKey b.calculate_stakes).Perm
      b.calculate_stakes := sortKeyed_perm _ _
  have hsum : sumValues (Blockchain.sortByKey b.calculate_stakes) =
      sumValues b.calculate_stakes := sumValues_perm hsorted_perm
  refine ⟨?_, ?_, ?_⟩
  · constructor
    · intro hnone
      by_contra htot
      have hpos : 0 < sumValues b.calculate_stakes := Nat.pos_of_ne_zero htot
      have hrand : Hash.firstEightBE seed % sumValues b.calculate_stakes <
          sumValues b.calculate_stakes := Nat.mod_lt _ hpos
      have hsome := selectLoop_isSome (Blockchain.sortByKey b.calculate_stakes)
        0 (Hash.firstEightBE seed % sumValues b.calculate_stakes)
        (Nat.zero_le _) (by rw [hsum]; omega)
      rw [Blockchain.get_next_validator] at hnone
      rw [if_neg htot] at hnone
      rw [hnone] at hsome
      simp at hsome
    · intro htot
      rw [Blockchain.get_next_validator, if_pos htot]
  · intro pk v
    rw [calculate_stakes_lookup b pk]
    by_cases hact : hasActiveStake b pk = true
    · rw [if_pos hact]
      by_cases hmin : STAKE_MINIMUM_AMOUNT ≤ specStakeOf b pk
      · rw [if_pos hmin]
        constructor
        · intro h
          have hv : v = specStakeOf b pk := by
            injection h with h2
            exact h2.symm
          exact ⟨hact, hv, hv ▸ hmin⟩
        · intro ⟨_, hv, _⟩
          rw [hv]
      · rw [if_neg hmin]
        constructor
        · intro h
          exact absurd h (by simp)
        · intro ⟨_, hv, hge⟩
          exact absurd (hv ▸ hge) hmin
    · rw [if_neg hact]
      constructor
      · intro h
        exact absurd h (by simp)
      · intro ⟨ha, _, _⟩
        exact absurd ha hact
  · intro pk hpk
    by_cases htot : sumValues b.calculate_stakes = 0
    · rw [Blockchain.get_next_validator, if_pos htot] at hpk
      exact absurd hpk (by simp)
    · rw [Blockchain.get_next_validator, if_neg htot] at hpk
      obtain ⟨pre, s, post, hdec, h1, h2⟩ :=
        selectLoop_some_decomp (Blockchain.sortByKey b.calculate_stakes) 0
          (Hash.firstEightBE seed % sumValues b.calculate_stakes) pk
          (Nat.zero_le _) hpk
      refine ⟨pre, s, post, hdec, ?_, ?_, by omega, by omega⟩
      · rw [← hdec]
        exact sortKeyed_pairwise _ _
      · rw [← hdec]
        exact hsorted_perm

/-! ### Fee accounting lemmas (coinbase vs per-transaction fees) -/

/-- Total output value of a transaction. -/
def txOutSum (t : Transaction) : Nat := (t.outputs.map (·.value)).sum

theorem mapValueSum_append (a b : List (Hash × TransactionOutput)) :
    Block.mapValueSum (a ++ b) = Block.mapValueSum a + Block.mapValueSum b := by
  simp [Block.mapValueSum]

theorem collectInputs_ok (utxos : List (Hash × Bool × TransactionOutput)) :
    ∀ (ins : List TransactionInput) (m0 m : List (Hash × TransactionOutput)),
      Block.collectInputs utxos ins m0 = .ok m →
      ∃ vals, mapO (fun i =>
          (lookupA utxos i.prev_transaction_output_hash).map
            (fun p => p.2.value)) ins = some vals ∧
        Block.mapValueSum m = Block.mapValueSum m0 + vals.sum
  | [], m0, m, h => by
    refine ⟨[], rfl, ?_⟩
    have : m0 = m := by
      rw [Block.collectInputs] at h
      injection h
    rw [this]
    simp
  | i :: rest, m0, m, h => by
    rw [Block.collectInputs] at h
    cases hl : lookupA utxos i.prev_transaction_output_hash with
    | none => rw [hl] at h; exact absurd h (by simp)
    | some p =>
      obtain ⟨mk, prev⟩ := p
      rw [hl] at h
      dsimp only at h
      by_cases hc : containsA m0 i.prev_transaction_output_hash = true
      · rw [if_pos hc] at h
        exact absurd h (by simp)
      · rw [if_neg hc] at h
        obtain ⟨vals, hmap, hsum⟩ := collectInputs_ok utxos rest _ m h
        refine ⟨prev.value :: vals, ?_, ?_⟩
        · simp only [mapO]
          rw [hl]
          simp only [Option.map_some']
          rw [hmap]
        · have hins : insertA m0 i.prev_transaction_output_hash prev =
              m0 ++ [(i.prev_transaction_output_hash, prev)] :=
            insertA_of_not_contains m0 _ prev (by simpa using hc)
          rw [hins, mapValueSum_append] at hsum
          simp only [Block.mapValueSum, List.map_cons, List.map_nil,
            List.sum_cons, List.sum_nil] at hsum ⊢
          omega

theorem collectOutputs_ok (C : CryptoModel) :
    ∀ (outs : List TransactionOutput) (m0 m : List (Hash × TransactionOutput)),
      Block.collectOutputs C outs m0 = .ok m →
      Block.mapValueSum m = Block.mapValueSum m0 + (outs.map (·.value)).sum
  | [], m0, m, h => by
    have : m0 = m := by
      rw [Block.collectOutputs] at h
      injection h
    rw [this]
    simp
  | o :: rest, m0, m, h => by
    rw [Block.collectOutputs] at h
    by_cases hc : containsA m0 (C.outputHash o) = true
    · rw [if_pos hc] at h
      exact absurd h (by simp)
    · rw [if_neg hc] at h
      have hrec := collectOutputs_ok C rest _ m h
      have hins : insertA m0 (C.outputHash o) o = m0 ++ [(C.outputHash o, o)] :=
        insertA_of_not_contains m0 _ o (by simpa using hc)
      rw [hins, mapValueSum_append] at hrec
      simp only [Block.mapValueSum, List.map_cons, List.map_nil,
        List.sum_cons, List.sum_nil] at hrec ⊢
      omega

theorem collectFeeMaps_ok (C : CryptoModel)
    (utxos : List (Hash × Bool × TransactionOutput)) :
    ∀ (txs : List Transaction)
      (im0 om0 im om : List (Hash × TransactionOutput)),
      Block.collectFeeMaps C utxos txs im0 om0 = .ok (im, om) →
      ∃ ivs, mapO (Blockchain.inputSum utxos) txs = some ivs ∧
        Block.mapValueSum im = Block.mapValueSum im0 + ivs.sum ∧
        Block.mapValueSum om = Block.mapValueSum om0 + (txs.map txOutSum).sum
  | [], im0, om0, im, om, h => by
    rw [Block.collectFeeMaps] at h
    have him : im0 = im ∧ om0 = om := by
      injection h with h2
      exact ⟨congrArg Prod.fst h2, congrArg Prod.snd h2⟩
    refine ⟨[], rfl, ?_, ?_⟩ <;> simp [him.1, him.2]
  | t :: rest, im0, om0, im, om, h => by
    rw [Block.collectFeeMaps] at h
    cases hci : Block.collectInputs utxos t.inputs im0 with
    | err e => rw [hci] at h; exact absurd h (by simp)
    | panicked => rw [hci] at h; exact absurd h (by simp)
    | ok im2 =>
      rw [hci] at h
      cases hco : Block.collectOutputs C t.outputs om0 with
      | err e => rw [hco] at h; exact absurd h (by simp)
      | panicked => rw [hco] at h; exact absurd h (by simp)
      | ok om2 =>
        rw [hco] at h
        obtain ⟨ivs, hmap, him, hom⟩ :=
          collectFeeMaps_ok C utxos rest im2 om2 im om h
        obtain ⟨vals, hvals, hsum2⟩ := collectInputs_ok utxos t.inputs im0 im2 hci
        have hout2 := collectOutputs_ok C t.outputs om0 om2 hco
        refine ⟨vals.sum :: ivs, ?_, ?_, ?_⟩
        · rw [mapO]
          have hinp : Blockchain.inputSum utxos t = some vals.sum := by
            unfold Blockchain.inputSum
            rw [hvals]
            rfl
          rw [hinp, hmap]
        · rw [him, hsum2]
          simp [List.sum_cons]
          omega
        · rw [hom, hout2]
          simp [txOutSum, List.sum_cons]
          omega

theorem verifyInputs_ok (C : CryptoModel)
    (utxos : List (Hash × Bool × TransactionOutput)) :
    ∀ (ins : List TransactionInput) (seen : List (Hash × TransactionOutput))
      (acc : Nat) (seen2 : List (Hash × TransactionOutput)) (iv : Nat),
      Block.verifyInputs C utxos ins seen acc = .ok (seen2, iv) →
      ∃ vals, mapO (fun i =>
          (lookupA utxos i.prev_transaction_output_hash).map
            (fun p => p.2.value)) ins = some vals ∧ iv = acc + vals.sum
  | [], seen, acc, seen2, iv, h => by
    rw [Block.verifyInputs] at h
    refine ⟨[], rfl, ?_⟩
    injection h with h2
    have : iv = acc := (congrArg Prod.snd h2).symm
    simp [this]
  | i :: rest, seen, acc, seen2, iv, h => by
    rw [Block.verifyInputs] at h
    cases hl : lookupA utxos i.prev_transaction_output_hash with
    | none => rw [hl] at h; exact absurd h (by simp)
    | some p =>
      obtain ⟨mk, prev⟩ := p
      rw [hl] at h
      dsimp only at h
      by_cases hc : containsA seen i.prev_transaction_output_hash = true
      · rw [if_pos hc] at h
        exact absurd h (by simp)
      · rw [if_neg hc] at h
        by_cases hs : C.sigVerify i.signature i.prev_transaction_output_hash
            prev.pubkey = true
        · rw [if_neg (by simp [hs])] at h
          obtain ⟨vals, hmap, hiv⟩ := verifyInputs_ok C utxos rest _ _ _ _ h
          refine ⟨prev.value :: vals, ?_, ?_⟩
          · simp only [mapO]
            rw [hl]
            simp only [Option.map_some']
            rw [hmap]
          · rw [hiv]
            simp only [List.sum_cons]
            omega
        · rw [if_pos (by simp [hs])] at h
          exact absurd h (by simp)

theorem verifyTxs_ok (C : CryptoModel)
    (utxos : List (Hash × Bool × TransactionOutput)) :
    ∀ (txs : List Transaction) (seen : List (Hash × TransactionOutput)),
      Block.verifyTxs C utxos txs seen = .ok () →
      ∀ t ∈ txs, ∃ iv, Blockchain.inputSum utxos t = some iv ∧ txOutSum t ≤ iv
  | [], seen, _, t, ht => absurd ht (by simp)
  | t0 :: rest, seen, h, t, ht => by
    rw [Block.verifyTxs] at h
    cases hvi : Block.verifyInputs C utxos t0.inputs seen 0 with
    | err e => rw [hvi] at h; exact absurd h (by simp)
    | panicked => rw [hvi] at h; exact absurd h (by simp)
    | ok p =>
      obtain ⟨seen2, inVal⟩ := p
      rw [hvi] at h
      dsimp only at h
      by_cases hlt : inVal < (t0.outputs.map (·.value)).sum
      · rw [if_pos hlt] at h
        exact absurd h (by simp)
      · rw [if_neg hlt] at h
        rcases List.mem_cons.mp ht with rfl | ht2
        · obtain ⟨vals, hmap, hiv⟩ := verifyInputs_ok C utxos t.inputs seen 0
            seen2 inVal hvi
          refine ⟨inVal, ?_, ?_⟩
          · unfold Blockchain.inputSum
            rw [hmap]
            simp [hiv]
          · exact le_of_not_lt (by simpa [txOutSum] using hlt)
        · exact verifyTxs_ok C utxos rest seen2 h t ht2

theorem feeList_of_bounds (utxos : List (Hash × Bool × TransactionOutput)) :
    ∀ (txs : List Transaction) (ivs : List Nat),
      mapO (Blockchain.inputSum utxos) txs = some ivs →
      (∀ t ∈ txs, ∃ iv, Blockchain.inputSum utxos t = some iv ∧ txOutSum t ≤ iv) →
      ∃ fees, mapO (Blockchain.txFeeChecked utxos) txs = some fees ∧
        (txs.map txOutSum).sum ≤ ivs.sum ∧
        fees.sum = ivs.sum - (txs.map txOutSum).sum
  | [], ivs, hmap, _ => by
    have : ivs = [] := by
      rw [mapO] at hmap
      injection hmap with h2
      exact h2.symm
    subst this
    exact ⟨[], rfl, by simp, by simp⟩
  | t :: rest, ivs, hmap, hb => by
    obtain ⟨iv0, ivs2, hf, hrest, rfl⟩ := mapO_cons_eq_some hmap
    obtain ⟨iv, hiv, hle⟩ := hb t (by simp)
    have hiv0 : iv = iv0 := by
      rw [hiv] at hf
      injection hf
    subst hiv0
    obtain ⟨fees, hfees, hsle, hsum⟩ := feeList_of_bounds utxos rest ivs2 hrest
      (fun t2 ht2 => hb t2 (List.mem_cons_of_mem t ht2))
    have hfee : Blockchain.txFeeChecked utxos t = some (iv - txOutSum t) := by
      unfold Blockchain.txFeeChecked
      rw [hiv]
      dsimp only
      rw [if_pos (by simpa [txOutSum] using hle)]
      rfl
    refine ⟨(iv - txOutSum t) :: fees, ?_, ?_, ?_⟩
    · rw [mapO, hfee, hfees]
    · simp only [List.map_cons, List.sum_cons]
      omega
    · simp only [List.map_cons, List.sum_cons]
      omega

/-! ### Inversion of add_block for accepted blocks -/

theorem add_block_checks_cases (C : CryptoModel) (fuel : Nat) (b b' : Blockchain)
    (blk : Block) (hok : Blockchain.add_block C fuel b blk = .ok b') :
    Blockchain.addBlockChecks C b blk = .park ∨
      Blockchain.addBlockChecks C b blk = .accept := by
  rw [Blockchain.add_block] at hok
  cases h : Blockchain.addBlockChecks C b blk with
  | park => exact Or.inl rfl
  | accept => exact Or.inr rfl
  | fail e => rw [h] at hok; exact absurd hok (by simp)
  | panickedCheck => rw [h] at hok; exact absurd hok (by simp)

theorem add_block_ok_verify (C : CryptoModel) (fuel : Nat) (b b' : Blockchain)
    (blk last : Block) (hlast : b.blocks.getLast? = some last)
    (hprev : blk.header.prev_block_hash = C.blockHash last)
    (hok : Blockchain.add_block C fuel b blk = .ok b') :
    Block.verify_transactions C b.utxos blk = .ok () := by
  have hcases := add_block_checks_cases C fuel b b' blk hok
  unfold Blockchain.addBlockChecks at hcases
  rw [hlast] at hcases
  dsimp only at hcases
  rw [if_neg (by simp [hprev])] at hcases
  cases hv : b.get_next_validator blk.header.prev_block_hash with
  | none => rw [hv] at hcases; rcases hcases with h | h <;> simp at h
  | some v =>
    rw [hv] at hcases
    dsimp only at hcases
    rcases hcases with h | h
    · by_cases h1 : blk.header.validator ≠ v
      · rw [if_pos h1] at h; simp at h
      · rw [if_neg h1] at h
        by_cases h2 : (!C.sigVerify blk.signature (C.headerHash blk.header)
            blk.header.validator) = true
        · rw [if_pos h2] at h; simp at h
        · rw [if_neg h2] at h
          by_cases h3 : C.merkleCalc blk.transactions ≠ blk.header.merkle_root
          · rw [if_pos h3] at h; simp at h
          · rw [if_neg h3] at h
            by_cases h4 : blk.header.timestamp ≤ last.header.timestamp
            · rw [if_pos h4] at h; simp at h
            · rw [if_neg h4] at h
              cases hver : Block.verify_transactions C b.utxos blk with
              | ok u => exact rfl
              | err e => rw [hver] at h; simp at h
              | panicked => rw [hver] at h; simp at h
    · by_cases h1 : blk.header.validator ≠ v
      · rw [if_pos h1] at h; simp at h
      · rw [if_neg h1] at h
        by_cases h2 : (!C.sigVerify blk.signature (C.headerHash blk.header)
            blk.header.validator) = true
        · rw [if_pos h2] at h; simp at h
        · rw [if_neg h2] at h
          by_cases h3 : C.merkleCalc blk.transactions ≠ blk.header.merkle_root
          · rw [if_pos h3] at h; simp at h
          · rw [if_neg h3] at h
            by_cases h4 : blk.header.timestamp ≤ last.header.timestamp
            · rw [if_pos h4] at h; simp at h
            · rw [if_neg h4] at h
              cases hver : Block.verify_transactions C b.utxos blk with
              | ok u => exact rfl
              | err e => rw [hver] at h; simp at h
              | panicked => rw [hver] at h; simp at h

/-- C2 (amended): for every block accepted by add_block onto a non-empty
chain, the coinbase output total equals the sum of the fees (input value
minus output value) of the non-coinbase transactions — with no block reward
added. -/
theorem c2_coinbase_equals_fee_sum (C : CryptoModel) (fuel : Nat)
    (b b' : Blockchain) (blk last : Block)
    (hlast : b.blocks.getLast? = some last)
    (hprev : blk.header.prev_block_hash = C.blockHash last)
    (hok : Blockchain.add_block C fuel b blk = .ok b') :
    ∃ cb rest fees, blk.transactions = cb :: rest ∧
      mapO (Blockchain.txFeeChecked b.utxos) rest = some fees ∧
      (cb.outputs.map (·.value)).sum = fees.sum := by
  have hver := add_block_ok_verify C fuel b b' blk last hlast hprev hok
  unfold Block.verify_transactions at hver
  by_cases hemp : blk.transactions.isEmpty
  · rw [if_pos hemp] at hver
    exact absurd hver (by simp)
  · rw [if_neg hemp] at hver
    obtain ⟨cb, rest, htxs⟩ : ∃ cb rest, blk.transactions = cb :: rest := by
      cases hcase : blk.transactions with
      | nil => rw [hcase] at hemp; exact absurd rfl hemp
      | cons a l => exact ⟨a, l, rfl⟩
    cases hcb : Block.verify_coinbase_transaction C b.utxos blk with
    | err e => rw [hcb] at hver; exact absurd hver (by simp)
    | panicked => rw [hcb] at hver; exact absurd hver (by simp)
    | ok u =>
      rw [hcb] at hver
      have htail : blk.transactions.tail = rest := by simp [htxs]
      rw [htail] at hver
      unfold Block.verify_coinbase_transaction at hcb
      rw [htxs] at hcb
      dsimp only at hcb
      by_cases h1 : cb.inputs.length ≠ 0
      · rw [if_pos h1] at hcb
        exact absurd hcb (by simp)
      · rw [if_neg h1] at hcb
        by_cases h2 : cb.outputs.length = 0
        · rw [if_pos h2] at hcb
          exact absurd hcb (by simp)
        · rw [if_neg h2] at hcb
          cases hmf : Block.calculate_miner_fees C b.utxos blk with
          | err e => rw [hmf] at hcb; exact absurd hcb (by simp)
          | panicked => rw [hmf] at hcb; exact absurd hcb (by simp)
          | ok mf =>
            rw [hmf] at hcb
            dsimp only at hcb
            by_cases hsumne : (cb.outputs.map (·.value)).sum ≠ mf
            · rw [if_pos hsumne] at hcb
              exact absurd hcb (by simp)
            · have hsumeq : (cb.outputs.map (·.value)).sum = mf := by
                by_contra hne
                exact hsumne hne
              have hverx : Block.verifyTxs C b.utxos rest [] = .ok () := by
                cases u
                simpa using hver
              unfold Block.calculate_miner_fees at hmf
              rw [htail] at hmf
              cases hcf : Block.collectFeeMaps C b.utxos rest [] [] with
              | err e => rw [hcf] at hmf; exact absurd hmf (by simp)
              | panicked => rw [hcf] at hmf; exact absurd hmf (by simp)
              | ok p =>
                obtain ⟨im, om⟩ := p
                rw [hcf] at hmf
                dsimp only at hmf
                by_cases hov : Block.mapValueSum om ≤ Block.mapValueSum im
                · rw [if_pos hov] at hmf
                  have hmf2 : Block.mapValueSum im - Block.mapValueSum om = mf := by
                    injection hmf
                  obtain ⟨ivs, hmap, him, hom⟩ :=
                    collectFeeMaps_ok C b.utxos rest [] [] im om hcf
                  have hbounds := verifyTxs_ok C b.utxos rest [] hverx
                  obtain ⟨fees, hfees, hsle, hfsum⟩ :=
                    feeList_of_bounds b.utxos rest ivs hmap hbounds
                  refine ⟨cb, rest, fees, htxs, hfees, ?_⟩
                  have hz1 : Block.mapValueSum ([] : List (Hash × TransactionOutput)) = 0 := rfl
                  rw [hz1] at him hom
                  omega
                · rw [if_neg hov] at hmf
                  exact absurd hmf (by simp)

/-- C10 (amended): the u64 subtraction in calculate_miner_fees never
underflows when every non-coinbase transaction's output total is at most its
input total (as resolved in the UTXO index); without that condition the
subtraction is reachable with input below output (see the counterexample). -/
theorem c10_no_underflow_when_balanced (C : CryptoModel)
    (utxos : List (Hash × Bool × TransactionOutput)) (blk : Block)
    (h : ∀ t ∈ blk.transactions.tail, ∃ iv,
      Blockchain.inputSum utxos t = some iv ∧ txOutSum t ≤ iv) :
    Block.minerFeeUnderflows C utxos blk = false := by
  unfold Block.minerFeeUnderflows
  cases hcf : Block.collectFeeMaps C utxos blk.transactions.tail [] [] with
  | err e => rfl
  | panicked => rfl
  | ok p =>
    obtain ⟨im, om⟩ := p
    obtain ⟨ivs, hmap, him, hom⟩ :=
      collectFeeMaps_ok C utxos blk.transactions.tail [] [] im om hcf
    obtain ⟨fees, hfees, hsle, hfsum⟩ :=
      feeList_of_bounds utxos blk.transactions.tail ivs hmap h
    have hz1 : Block.mapValueSum ([] : List (Hash × TransactionOutput)) = 0 := rfl
    rw [hz1] at him hom
    simp only [decide_eq_false_iff_not, not_lt]
    omega

/-! ### Mempool admission: the result is fee-sorted ascending -/

theorem mapO_of_pairs {α β : Type} (f : α → Option β) :
    ∀ (pairs : List (β × α)), (∀ p ∈ pairs, f p.2 = some p.1) →
      mapO f (pairs.map (·.2)) = some (pairs.map (·.1))
  | [], _ => rfl
  | p :: pairs, h => by
    have hp := h p (by simp)
    have hrest := mapO_of_pairs f pairs (fun q hq => h q (List.mem_cons_of_mem p hq))
    simp only [List.map_cons, mapO, hp, hrest]

theorem add_to_mempool_ok_inv (C : CryptoModel) (b : Blockchain) (now : Nat)
    (t : Transaction) (b' : Blockchain)
    (hok : Blockchain.add_to_mempool C b now t = .ok b') :
    ∃ u3 mp3 fees,
      mapO (fun e => Blockchain.txFeeChecked u3 e.2) mp3 = some fees ∧
      b'.utxos = u3 ∧
      b'.mempool = (Blockchain.sortByFee (fees.zip mp3)).map (·.2) := by
  unfold Blockchain.add_to_mempool at hok
  dsimp only at hok
  cases hchk : Blockchain.checkInputsLoop b.utxos b.block_height t.inputs [] with
  | err e => rw [hchk] at hok; exact absurd hok (by simp)
  | panicked => rw [hchk] at hok; exact absurd hok (by simp)
  | ok u =>
    rw [hchk] at hok
    dsimp only at hok
    cases hin : Blockchain.inputSum
        (Blockchain.supersede C t.inputs b.utxos b.mempool).1 t with
    | none => rw [hin] at hok; exact absurd hok (by simp)
    | some allIn =>
      rw [hin] at hok
      dsimp only at hok
      by_cases hlt : allIn < (t.outputs.map (·.value)).sum
      · rw [if_pos hlt] at hok
        exact absurd hok (by simp)
      · rw [if_neg hlt] at hok
        cases hfees : mapO
            (fun e => Blockchain.txFeeChecked
              (Blockchain.markInputs
                (Blockchain.supersede C t.inputs b.utxos b.mempool).1 t) e.2)
            ((Blockchain.supersede C t.inputs b.utxos b.mempool).2 ++ [(now, t)]) with
        | none => rw [hfees] at hok; exact absurd hok (by simp)
        | some fees =>
          rw [hfees] at hok
          dsimp only at hok
          refine ⟨Blockchain.markInputs
              (Blockchain.supersede C t.inputs b.utxos b.mempool).1 t,
            (Blockchain.supersede C t.inputs b.utxos b.mempool).2 ++ [(now, t)],
            fees, hfees, ?_, ?_⟩
          · have := congrArg Blockchain.utxos (Outcome.ok.injEq _ _ ▸ hok :
              Blockchain.mk _ _ _ _ _ _ = b')
            exact this.symm
          · have := congrArg Blockchain.mempool (Outcome.ok.injEq _ _ ▸ hok :
              Blockchain.mk _ _ _ _ _ _ = b')
            exact this.symm

/-- C5 (amended): after every successful add_to_mempool the mempool is sorted
by ASCENDING miner fee (referenced input values minus output values), not
descending: Vec::sort_by_key sorts in ascending key order. -/
theorem c5_mempool_sorted_ascending (C : CryptoModel) (b : Blockchain)
    (now : Nat) (t : Transaction) (b' : Blockchain)
    (hok : Blockchain.add_to_mempool C b now t = .ok b') :
    ∃ fees, mapO (fun e => Blockchain.txFeeChecked b'.utxos e.2) b'.mempool =
      some fees ∧ List.Pairwise (· ≤ ·) fees := by
  obtain ⟨u3, mp3, fees0, hmap, hu, hmp⟩ :=
    add_to_mempool_ok_inv C b now t b' hok
  have hzip := mapO_zip_prop hmap
  have hperm : (Blockchain.sortByFee (fees0.zip mp3)).Perm (fees0.zip mp3) :=
    sortKeyed_perm _ _
  have hsorted_prop : ∀ p ∈ Blockchain.sortByFee (fees0.zip mp3),
      Blockchain.txFeeChecked u3 p.2.2 = some p.1 :=
    fun p hp => hzip p (hperm.mem_iff.mp hp)
  refine ⟨(Blockchain.sortByFee (fees0.zip mp3)).map (·.1), ?_, ?_⟩
  · rw [hmp, hu]
    exact mapO_of_pairs _ _ hsorted_prop
  · have hpw : List.Pairwise (fun x y => x.1 ≤ y.1)
        (Blockchain.sortByFee (fees0.zip mp3)) := sortKeyed_pairwise _ _
    exact List.pairwise_map.mpr hpw

/-! ### Orphan parking, genesis append, rebuild idempotence -/

theorem processOrphans_empty_cache (C : CryptoModel) :
    ∀ (fuel : Nat) (stack : List Hash) (b : Blockchain),
      b.orphan_children = [] → Blockchain.processOrphans C fuel stack b = some b
  | 0, _, _, _ => rfl
  | fuel + 1, [], b, _ => rfl
  | fuel + 1, h :: rest, b, hor => by
    rw [Blockchain.processOrphans]
    rw [hor]
    exact processOrphans_empty_cache C fuel rest b hor

/-- C6: a block whose prev_block_hash is neither the zero sentinel (empty
chain) nor the tip hash (non-empty chain) is stored in the orphan cache under
its prev_block_hash, the block list is unchanged, and add_block reports
success. -/
theorem c6_unknown_parent_parks (C : CryptoModel) (fuel : Nat)
    (b : Blockchain) (blk : Block)
    (h : match b.blocks.getLast? with
         | none => blk.header.prev_block_hash ≠ Hash.zero
         | some last => blk.header.prev_block_hash ≠ C.blockHash last) :
    Blockchain.add_block C fuel b blk =
      .ok { b with orphan_children :=
        Blockchain.pushOrphanA b.orphan_children blk.header.prev_block_hash blk } ∧
    ({ b with orphan_children :=
        Blockchain.pushOrphanA b.orphan_children blk.header.prev_block_hash blk
      } : Blockchain).blocks = b.blocks ∧
    lookupA
        (Blockchain.pushOrphanA b.orphan_children blk.header.prev_block_hash blk)
        blk.header.prev_block_hash =
      some ((lookupA b.orphan_children blk.header.prev_block_hash).getD []
        ++ [blk]) := by
  have hpark : Blockchain.addBlockChecks C b blk = .park := by
    unfold Blockchain.addBlockChecks
    cases hlast : b.blocks.getLast? with
    | none =>
      rw [hlast] at h
      exact if_pos h
    | some last =>
      rw [hlast] at h
      exact if_pos h
  refine ⟨?_, rfl, ?_⟩
  · rw [Blockchain.add_block, hpark]
  · exact lookupA_insertA_self _ _ _

/-- C9: on an empty chain (with an empty orphan cache), a block whose
prev_block_hash is the zero sentinel is appended and add_block returns
success, with no validator, signature, merkle, timestamp or transaction
checks: the block and its transaction list are entirely arbitrary, and it
becomes the unique block of the chain. -/
theorem c9_genesis_without_validation (C : CryptoModel) (fuel : Nat)
    (b : Blockchain) (blk : Block) (hempty : b.blocks = [])
    (horph : b.orphan_children = [])
    (hprev : blk.header.prev_block_hash = Hash.zero) :
    Blockchain.add_block C fuel b blk = .ok (Blockchain.appendTail C b blk) ∧
    (Blockchain.appendTail C b blk).blocks = [blk] := by
  have haccept : Blockchain.addBlockChecks C b blk = .accept := by
    unfold Blockchain.addBlockChecks
    rw [hempty]
    dsimp only [List.getLast?]
    rw [if_neg (by simp [hprev])]
  have hortail : (Blockchain.appendTail C b blk).orphan_children = [] := horph
  constructor
  · rw [Blockchain.add_block, haccept]
    cases fuel with
    | zero => rfl
    | succ f =>
      dsimp only
      rw [processOrphans_empty_cache C f _ _ hortail]
  · unfold Blockchain.appendTail
    simp [hempty]

/-- C8: rebuild_utxos is idempotent: running it twice leaves the UTXO index,
including the marked flags, extensionally identical (per-key lookup, the
equality of a HashMap) to running it once. -/
theorem c8_rebuild_idempotent (C : CryptoModel) (b : Blockchain) (k : Hash) :
    lookupA ((Blockchain.rebuild_utxos C (Blockchain.rebuild_utxos C b)).utxos) k =
      lookupA ((Blockchain.rebuild_utxos C b).utxos) k := by
  have h1 := rebuild_utxos_as_ops C b
  have h2 := rebuild_utxos_as_ops C (Blockchain.rebuild_utxos C b)
  have hblocks : (Blockchain.rebuild_utxos C b).blocks = b.blocks := rfl
  rw [h2, hblocks, h1]
  exact lookupA_applyOps_idem _ _ _

/-! ### Concrete instances used by witnesses and counterexamples -/

/-- A concrete instantiation of the opaque crypto collaborators, used to
evaluate the engine on closed inputs. -/
def testCrypto : CryptoModel where
  outputHash := fun o => o.unique_id
  txHash := fun t =>
    (t.inputs.map (·.signature)).sum + (t.outputs.map (·.unique_id)).sum
  headerHash := fun _ => 0
  blockHash := fun _ => 5
  merkleCalc := fun _ => 0
  sigVerify := fun _ _ _ => true

/-- The freshly constructed blockchain (Blockchain::new). -/
def emptyChain : Blockchain :=
  { utxos := [], blocks := [], mempool := [], orphan_children := [],
    slashing_history := [], slashed_amounts := [] }

/-- A placeholder block used only to pad chains to a given height. -/
def dummyBlock : Block :=
  { header := { timestamp := 0, prev_block_hash := 0, merkle_root := 0,
                validator := 0 },
    transactions := [], signature := 0 }

/-- A chain padded to the given height (block_height only reads the length). -/
def chainOfHeight (n : Nat) : Blockchain :=
  { emptyChain with blocks := List.replicate n dummyBlock }

/-- Mempool of an add_to_mempool outcome (empty on error or panic). -/
def mempoolOf : Outcome Blockchain → List (Nat × Transaction)
  | .ok b => b.mempool
  | _ => []

/-- UTXO index of an add_to_mempool outcome (empty on error or panic). -/
def utxosOf : Outcome Blockchain → List (Hash × Bool × TransactionOutput)
  | .ok b => b.utxos
  | _ => []

/-- The on-chain UTXO U contested by the two mempool transactions of the
supersession scenario; it sits marked in the index, claimed by c3T1. -/
def c3U : TransactionOutput :=
  { unique_id := 10, value := 100, pubkey := 2, is_stake := false,
    locked_until := 0 }

/-- The older mempool entry: spends U (fee 10). -/
def c3T1 : Transaction :=
  { inputs := [{ prev_transaction_output_hash := 10, signature := 1 }],
    outputs := [{ unique_id := 7, value := 90, pubkey := 3, is_stake := false,
                  locked_until := 0 }] }

/-- The newer transaction: also spends U (fee 50). -/
def c3T2 : Transaction :=
  { inputs := [{ prev_transaction_output_hash := 10, signature := 2 }],
    outputs := [{ unique_id := 8, value := 50, pubkey := 4, is_stake := false,
                  locked_until := 0 }] }

/-- State with U marked and c3T1 in the mempool claiming it. -/
def c3State : Blockchain :=
  { emptyChain with
    utxos := [(10, (true, c3U))]
    mempool := [(0, c3T1)] }

/-- A stake output locked until height 100. -/
def c4Stake : TransactionOutput :=
  { unique_id := 5, value := 1000 * 10 ^ 8, pubkey := 9, is_stake := true,
    locked_until := 100 }

/-- A transaction spending the locked stake output. -/
def c4Tx : Transaction :=
  { inputs := [{ prev_transaction_output_hash := 5, signature := 3 }],
    outputs := [{ unique_id := 6, value := 50, pubkey := 9, is_stake := false,
                  locked_until := 0 }] }

/-- The stake-lock scenario state at the given chain height. -/
def c4State (n : Nat) : Blockchain :=
  { emptyChain with
    utxos := [(5, (false, c4Stake))]
    blocks := List.replicate n dummyBlock }

def c5UA : TransactionOutput :=
  { unique_id := 11, value := 100, pubkey := 2, is_stake := false,
    locked_until := 0 }

def c5UB : TransactionOutput :=
  { unique_id := 12, value := 200, pubkey := 2, is_stake := false,
    locked_until := 0 }

/-- Fee-10 transaction, already admitted. -/
def c5TA : Transaction :=
  { inputs := [{ prev_transaction_output_hash := 11, signature := 1 }],
    outputs := [{ unique_id := 13, value := 90, pubkey := 3, is_stake := false,
                  locked_until := 0 }] }

/-- Fee-50 transaction, admitted second. -/
def c5TB : Transaction :=
  { inputs := [{ prev_transaction_output_hash := 12, signature := 1 }],
    outputs := [{ unique_id := 14, value := 150, pubkey := 3, is_stake := false,
                  locked_until := 0 }] }

/-- State after admitting the fee-10 transaction. -/
def c5Mid : Blockchain :=
  { emptyChain with
    utxos := [(11, (true, c5UA)), (12, (false, c5UB))]
    mempool := [(0, c5TA)] }

/-- State after then admitting the fee-50 transaction: the mempool holds the
fee-10 entry first, the fee-50 entry second (ascending). -/
def c5Final : Blockchain :=
  { emptyChain with
    utxos := [(11, (true, c5UA)), (12, (true, c5UB))]
    mempool := [(0, c5TA), (1, c5TB)] }

def c2Stake : TransactionOutput :=
  { unique_id := 20, value := 1000 * 10 ^ 8, pubkey := 1, is_stake := true,
    locked_until := 1000 }

def c2Spend : TransactionOutput :=
  { unique_id := 21, value := 100, pubkey := 2, is_stake := false,
    locked_until := 0 }

def c2Genesis : Block :=
  { header := { timestamp := 0, prev_block_hash := 0, merkle_root := 0,
                validator := 0 },
    transactions := [], signature := 0 }

/-- Coinbase paying exactly the fee total (10), with no block reward. -/
def c2Coinbase : Transaction :=
  { inputs := [],
    outputs := [{ unique_id := 30, value := 10, pubkey := 1, is_stake := false,
                  locked_until := 0 }] }

/-- A fee-10 transaction (input 100, output 90). -/
def c2FeeTx : Transaction :=
  { inputs := [{ prev_transaction_output_hash := 21, signature := 4 }],
    outputs := [{ unique_id := 31, value := 90, pubkey := 3, is_stake := false,
                  locked_until := 0 }] }

/-- A fully valid block under testCrypto: prev = tip hash, expected validator,
timestamp above the tip's, coinbase = fees. -/
def c2Block : Block :=
  { header := { timestamp := 1, prev_block_hash := 5, merkle_root := 0,
                validator := 1 },
    transactions := [c2Coinbase, c2FeeTx], signature := 0 }

/-- Chain with one genesis block, a staked validator (pubkey 1) and a
spendable UTXO. -/
def c2State : Blockchain :=
  { emptyChain with
    utxos := [(20, (false, c2Stake)), (21, (false, c2Spend))]
    blocks := [c2Genesis] }

/-- The state after c2Block is accepted. -/
def c2Result : Blockchain :=
  { emptyChain with
    utxos := [(20, (false, c2Stake)), (21, (false, c2Spend))]
    blocks := [c2Genesis, c2Block] }

/-- State with a single active stake (pubkey 1, exactly the minimum). -/
def c1StakeOut : TransactionOutput :=
  { unique_id := 90, value := 1000 * 10 ^ 8, pubkey := 1, is_stake := true,
    locked_until := 10 }

def c1State : Blockchain :=
  { emptyChain with utxos := [(90, (false, c1StakeOut))] }

/-- A block with an unknown parent hash (1), to be parked as an orphan. -/
def c6Block : Block :=
  { header := { timestamp := 0, prev_block_hash := 1, merkle_root := 0,
                validator := 0 },
    transactions := [], signature := 0 }

/-- A genesis candidate full of junk: a nonsense transaction spending a
nonexistent output, a wrong merkle root and an arbitrary signature. -/
def c9Block : Block :=
  { header := { timestamp := 7, prev_block_hash := 0, merkle_root := 123,
                validator := 42 },
    transactions := [{ inputs := [{ prev_transaction_output_hash := 999,
                                    signature := 77 }],
                       outputs := [] }],
    signature := 99 }

/-- UTXO set for the fee-underflow scenario: the deficit transaction's input
is worth 50. -/
def c10Utxos : List (Hash × Bool × TransactionOutput) :=
  [(40, (false, { unique_id := 40, value := 50, pubkey := 2, is_stake := false,
                  locked_until := 0 }))]

/-- A non-coinbase transaction whose outputs (100) exceed its inputs (50). -/
def c10Deficit : Transaction :=
  { inputs := [{ prev_transaction_output_hash := 40, signature := 1 }],
    outputs := [{ unique_id := 41, value := 100, pubkey := 3, is_stake := false,
                  locked_until := 0 }] }

/-- A block whose first transaction is a well-formed coinbase and whose second
transaction runs a value deficit. -/
def c10Block : Block :=
  { header := { timestamp := 0, prev_block_hash := 0, merkle_root := 0,
                validator := 0 },
    transactions := [c2Coinbase, c10Deficit], signature := 0 }

/-! ### Claim witnesses and counterexamples on the concrete instances -/

/-- C3 (code-bug evidence): with UTXO U (hash 10) marked as claimed by the
mempool entry c3T1, admitting c3T2 — which also spends U — succeeds, yet c3T1
REMAINS in the mempool alongside c3T2 and both claim U: the supersession
search scans mempool outputs for U's hash, which only matches the transaction
that created U (never in the mempool here), not the one spending it, so the
older entry is never found and never removed, contradicting the source's own
comment ("find the transaction that references them in mempool, remove it"). -/
theorem c3_supersession_keeps_old_entry :
    (Blockchain.add_to_mempool testCrypto c3State 1 c3T2).isOk = true ∧
    mempoolOf (Blockchain.add_to_mempool testCrypto c3State 1 c3T2) =
      [(0, c3T1), (1, c3T2)] ∧
    lookupA (utxosOf (Blockchain.add_to_mempool testCrypto c3State 1 c3T2)) 10 =
      some (true, c3U) :=
  ⟨rfl, rfl, rfl⟩

/-- C4 (amended): spending a stake locked_until 100 fails StakeLocked at
height 50, but is already admitted at height 100 (the check is
locked_until > current_height, strict, so height 100 is spendable) and at
height 101. -/
theorem c4_stake_lock_boundary :
    Blockchain.add_to_mempool testCrypto (c4State 50) 0 c4Tx =
      .err .stakeLocked ∧
    (Blockchain.add_to_mempool testCrypto (c4State 100) 0 c4Tx).isOk = true ∧
    (Blockchain.add_to_mempool testCrypto (c4State 101) 0 c4Tx).isOk = true :=
  ⟨rfl, rfl, rfl⟩

/-- C4 counterexample: at current height exactly 100 the admission of a
transaction spending a stake with locked_until = 100 SUCCEEDS; it does not
fail with StakeLocked as the claim asserts. -/
theorem c4_counterexample_height_100 :
    (Blockchain.add_to_mempool testCrypto (c4State 100) 0 c4Tx).isOk = true ∧
    Blockchain.add_to_mempool testCrypto (c4State 100) 0 c4Tx ≠
      Outcome.err EthError.stakeLocked :=
  ⟨rfl, by decide⟩

/-- C5 counterexample: after admitting a fee-10 then a fee-50 transaction the
mempool fee sequence is [10, 50], which is not sorted by descending fee. -/
theorem c5_counterexample_not_descending :
    Blockchain.add_to_mempool testCrypto c5Mid 1 c5TB = .ok c5Final ∧
    mapO (fun e => Blockchain.txFeeChecked c5Final.utxos e.2) c5Final.mempool =
      some [10, 50] ∧
    ¬List.Pairwise (fun a b => b ≤ a) ([10, 50] : List Nat) := by
  refine ⟨rfl, rfl, ?_⟩
  intro h
  have := (List.pairwise_cons.mp h).1 50 (by simp)
  omega

/-- C5 witness: the amended ascending-sort theorem applied to the concrete
two-transaction admission. -/
theorem c5_witness :
    ∃ fees, mapO (fun e => Blockchain.txFeeChecked c5Final.utxos e.2)
      c5Final.mempool = some fees ∧ List.Pairwise (· ≤ ·) fees :=
  c5_mempool_sorted_ascending testCrypto c5Mid 1 c5TB c5Final rfl

/-- C2 counterexample: a block whose coinbase pays exactly the fee total (10)
is accepted by add_block onto a non-empty chain, while block_reward at that
state is 5,000,000,000 — so the coinbase total does not equal
block_reward + fees as the claim asserts (the verifier adds no reward). -/
theorem c2_counterexample_no_block_reward :
    Blockchain.add_block testCrypto 3 c2State c2Block = .ok c2Result ∧
    c2Block.transactions = [c2Coinbase, c2FeeTx] ∧
    (c2Coinbase.outputs.map (·.value)).sum = 10 ∧
    mapO (Blockchain.txFeeChecked c2State.utxos) [c2FeeTx] = some [10] ∧
    Blockchain.calculate_block_reward c2State = some 5000000000 ∧
    (10 : Nat) ≠ 5000000000 + 10 :=
  ⟨rfl, rfl, rfl, rfl, rfl, by decide⟩

/-- C2 witness: the amended coinbase-equals-fees theorem applied to the
concrete accepted block. -/
theorem c2_witness :
    ∃ cb rest fees, c2Block.transactions = cb :: rest ∧
      mapO (Blockchain.txFeeChecked c2State.utxos) rest = some fees ∧
      (cb.outputs.map (·.value)).sum = fees.sum :=
  c2_coinbase_equals_fee_sum testCrypto 3 c2State c2Result c2Block c2Genesis
    rfl rfl rfl

set_option maxRecDepth 100000 in
/-- C7 (amended): for every chain whose height stays below 64 halvings
(height < 13440), calculate_block_reward is INITIAL_REWARD × 10^8 shifted
right by height / HALVING_INTERVAL; in particular 50×10^8 at height 0,
25×10^8 at height 210, and 1,250,000,000 at height 420.  At 64 halvings and
beyond the u64 shift overflows (see the counterexample). -/
theorem c7_block_reward_shift (b : Blockchain)
    (h : b.block_height / HALVING_INTERVAL < 64) :
    Blockchain.calculate_block_reward b =
      some ((INITIAL_REWARD * 10 ^ 8) >>> (b.block_height / HALVING_INTERVAL)) ∧
    Blockchain.calculate_block_reward (chainOfHeight 0) = some 5000000000 ∧
    Blockchain.calculate_block_reward (chainOfHeight 210) = some 2500000000 ∧
    Blockchain.calculate_block_reward (chainOfHeight 420) = some 1250000000 := by
  refine ⟨?_, rfl, rfl, rfl⟩
  unfold Blockchain.calculate_block_reward
  rw [if_pos h]

set_option maxRecDepth 100000 in
/-- C7 witness: the amended reward theorem applied at height 0. -/
theorem c7_witness :
    (chainOfHeight 0).block_height / HALVING_INTERVAL < 64 ∧
    (Blockchain.calculate_block_reward (chainOfHeight 0) =
      some ((INITIAL_REWARD * 10 ^ 8) >>>
        ((chainOfHeight 0).block_height / HALVING_INTERVAL)) ∧
    Blockchain.calculate_block_reward (chainOfHeight 0) = some 5000000000 ∧
    Blockchain.calculate_block_reward (chainOfHeight 210) = some 2500000000 ∧
    Blockchain.calculate_block_reward (chainOfHeight 420) = some 1250000000) :=
  ⟨by decide, c7_block_reward_shift (chainOfHeight 0) (by decide)⟩

/-- C7 counterexample: at height 13440 the shift amount is 64, a u64 shift
overflow (panic under checked arithmetic, masked shift in release), so the
reward is NOT the mathematical shift the claim states for every height. -/
theorem c7_counterexample_height_13440 :
    Blockchain.calculate_block_reward (chainOfHeight 13440) = none ∧
    Blockchain.calculate_block_reward (chainOfHeight 13440) ≠
      some ((INITIAL_REWARD * 10 ^ 8) >>>
        ((chainOfHeight 13440).block_height / HALVING_INTERVAL)) := by
  have hh : (chainOfHeight 13440).block_height = 13440 := by
    show (chainOfHeight 13440).blocks.length = 13440
    rw [show (chainOfHeight 13440).blocks = List.replicate 13440 dummyBlock from rfl]
    exact List.length_replicate 13440 dummyBlock
  have h1 : Blockchain.calculate_block_reward (chainOfHeight 13440) = none := by
    unfold Blockchain.calculate_block_reward
    rw [hh]
    norm_num [HALVING_INTERVAL]
  exact ⟨h1, by rw [h1]; simp⟩

/-- C9 witness: the genesis theorem applied to a junk block (nonsense
transaction, wrong merkle root, arbitrary signature) on a fresh chain. -/
theorem c9_witness :
    emptyChain.blocks = [] ∧ emptyChain.orphan_children = [] ∧
    c9Block.header.prev_block_hash = Hash.zero ∧
    (Blockchain.add_block testCrypto 2 emptyChain c9Block =
      .ok (Blockchain.appendTail testCrypto emptyChain c9Block) ∧
    (Blockchain.appendTail testCrypto emptyChain c9Block).blocks = [c9Block]) :=
  ⟨rfl, rfl, rfl,
    c9_genesis_without_validation testCrypto 2 emptyChain c9Block rfl rfl rfl⟩

/-- The state reached by parking c6Block: empty chain, orphan cache holding
the block under its unknown parent hash. -/
def c6Parked : Blockchain :=
  { emptyChain with
    orphan_children :=
      Blockchain.pushOrphanA emptyChain.orphan_children
        c6Block.header.prev_block_hash c6Block }

/-- C6 witness: the parking theorem applied to a block with unknown parent
hash 1 on an empty chain. -/
theorem c6_witness :
    (match emptyChain.blocks.getLast? with
     | none => c6Block.header.prev_block_hash ≠ Hash.zero
     | some last => c6Block.header.prev_block_hash ≠ testCrypto.blockHash last) ∧
    (Blockchain.add_block testCrypto 1 emptyChain c6Block = .ok c6Parked ∧
    c6Parked.blocks = emptyChain.blocks ∧
    lookupA c6Parked.orphan_children c6Block.header.prev_block_hash =
      some ((lookupA emptyChain.orphan_children
        c6Block.header.prev_block_hash).getD [] ++ [c6Block])) :=
  ⟨(by decide : c6Block.header.prev_block_hash ≠ Hash.zero),
   c6_unknown_parent_parks testCrypto 1 emptyChain c6Block
     (by decide : c6Block.header.prev_block_hash ≠ Hash.zero)⟩

/-- C1 witness: on a chain with a single active stake of exactly the minimum
for pubkey 1 and seed 0, the lottery picks pubkey 1, with the sorted-table
decomposition provided by the lottery theorem. -/
theorem c1_witness :
    Blockchain.get_next_validator c1State 0 = some 1 ∧
    (∃ pre s post,
      Blockchain.sortByKey c1State.calculate_stakes = pre ++ (1, s) :: post ∧
      List.Pairwise (fun x y => x.1 ≤ y.1) (pre ++ (1, s) :: post) ∧
      (pre ++ (1, s) :: post).Perm c1State.calculate_stakes ∧
      sumValues pre ≤ Hash.firstEightBE 0 % sumValues c1State.calculate_stakes ∧
      Hash.firstEightBE 0 % sumValues c1State.calculate_stakes <
        sumValues pre + s) :=
  ⟨rfl, (c1_validator_lottery c1State 0).2.2 1 rfl⟩

/-- C10 counterexample: a block whose first transaction is a zero-input
coinbase and whose second transaction has outputs (100) above its resolved
inputs (50) reaches the miner-fee subtraction with input_value <
output_value: the u64 subtraction underflows, contrary to the claim. -/
theorem c10_counterexample_underflow :
    (c10Block.transactions.head?.map (·.inputs)) = some [] ∧
    Block.minerFeeUnderflows testCrypto c10Utxos c10Block = true :=
  ⟨rfl, rfl⟩

/-- C10 witness: the amended no-underflow theorem applied to the concrete
balanced block of the C2 scenario. -/
theorem c10_witness :
    Block.minerFeeUnderflows testCrypto c2State.utxos c2Block = false :=
  c10_no_underflow_when_balanced testCrypto c2State.utxos c2Block (by
    intro t ht
    have heq : t = c2FeeTx := by
      simpa [c2Block] using ht
    subst heq
    exact ⟨100, rfl, by decide⟩)
